import Mathlib

/-!
Verification of the Environment_Toggle_Drift policy-tree pipeline.

This file embeds, as executable Lean definitions, the core algorithms of the
repository (policy_tree.py, merge.py, actions.py, targeting.py, toggles.py,
exporters.py) and proves or refutes the frozen specification claims about them.

Modelling conventions, used throughout:
* Python dicts holding graph nodes are association lists `PyDict`;
  JSON-ish field values are `JVal` (string, integer, boolean, null, array).
* Dotted position strings such as "1.2.3" are modelled directly as their
  dotted-integer tuples `List Nat` (the code itself compares positions only
  through `pos_tuple`, which parses exactly these digit strings).
* Computations that can raise a Python exception return `Option`/`PyRes`;
  recursion whose depth is unbounded in Python is given an explicit fuel
  argument, with fuel exhaustion marked by a dedicated result.
-/

/-! ## Position tuples

`pos_tuple` (utils.py) turns "1.2.3" into the tuple (1,2,3); positions are
compared with Python tuple comparison, i.e. lexicographic order with a proper
initial segment sorting first.  We model positions as `List Nat` directly. -/

/-- Python tuple comparison `p < q` on integer tuples (lexicographic). -/
def posLt : List Nat → List Nat → Bool
  | [], [] => false
  | [], _ :: _ => true
  | _ :: _, [] => false
  | a :: as, b :: bs => if a < b then true else if b < a then false else posLt as bs

/-- Python tuple comparison `p <= q` on integer tuples. -/
def posLe (p q : List Nat) : Bool := posLt p q || p == q

/-- The test used by `propagate_conditions` (merge.py line 145) for "stack top
is a strict ancestor of the current row": `len(top) < len(segs) and
top == segs[:len(top)]`. -/
def posAnc (p q : List Nat) : Bool := decide (p.length < q.length) && (q.take p.length == p)

theorem posLt_cons (a b : Nat) (as bs : List Nat) :
    posLt (a :: as) (b :: bs) = true ↔ (a < b ∨ (a = b ∧ posLt as bs = true)) := by
  rcases Nat.lt_trichotomy a b with h | h | h
  · simp [posLt, h, Nat.lt_asymm h]
  · subst h; simp [posLt]
  · simp [posLt, Nat.lt_asymm h, h]
    omega

theorem posAnc_cons (a b : Nat) (as bs : List Nat) :
    posAnc (a :: as) (b :: bs) = true ↔ (a = b ∧ posAnc as bs = true) := by
  simp only [posAnc, List.length_cons, List.take_succ_cons, Bool.and_eq_true,
    decide_eq_true_eq, beq_iff_eq, List.cons.injEq]
  constructor
  · rintro ⟨hl, hb, ht⟩
    exact ⟨hb.symm, by omega, ht⟩
  · rintro ⟨hb, hl, ht⟩
    exact ⟨by omega, hb.symm, ht⟩

theorem posAnc_nil (q : List Nat) : posAnc [] q = true ↔ q ≠ [] := by
  cases q <;> simp [posAnc]

theorem posLt_irrefl (p : List Nat) : posLt p p = false := by
  induction p with
  | nil => rfl
  | cons a as ih => simp [posLt, ih]

theorem posLt_asymm {p q : List Nat} (h : posLt p q = true) : posLt q p = false := by
  induction p generalizing q with
  | nil => cases q with
    | nil => simp [posLt] at h
    | cons b bs => simp [posLt]
  | cons a as ih =>
    cases q with
    | nil => simp [posLt] at h
    | cons b bs =>
      rcases (posLt_cons a b as bs).mp h with h1 | ⟨h1, h2⟩
      · rw [Bool.eq_false_iff]
        intro hc
        rcases (posLt_cons b a bs as).mp hc with hc | ⟨hc, _⟩ <;> omega
      · subst h1
        rw [Bool.eq_false_iff]
        intro hc
        rcases (posLt_cons a a bs as).mp hc with hc | ⟨_, hc⟩
        · omega
        · have := ih h2
          rw [hc] at this
          exact absurd this (by simp)

theorem posLt_trans {p q r : List Nat} (h1 : posLt p q = true) (h2 : posLt q r = true) :
    posLt p r = true := by
  induction p generalizing q r with
  | nil =>
    cases r with
    | nil =>
      cases q with
      | nil => simp [posLt] at h1
      | cons b bs => simp [posLt] at h2
    | cons c cs => simp [posLt]
  | cons a as ih =>
    cases q with
    | nil => simp [posLt] at h1
    | cons b bs =>
      cases r with
      | nil => simp [posLt] at h2
      | cons c cs =>
        rcases (posLt_cons a b as bs).mp h1 with ha | ⟨ha, ha2⟩ <;>
          rcases (posLt_cons b c bs cs).mp h2 with hb | ⟨hb, hb2⟩
        · exact (posLt_cons a c as cs).mpr (Or.inl (by omega))
        · exact (posLt_cons a c as cs).mpr (Or.inl (by omega))
        · exact (posLt_cons a c as cs).mpr (Or.inl (by omega))
        · exact (posLt_cons a c as cs).mpr (Or.inr ⟨by omega, ih ha2 hb2⟩)

theorem posLt_of_posAnc {p q : List Nat} (h : posAnc p q = true) : posLt p q = true := by
  induction p generalizing q with
  | nil =>
    cases q with
    | nil => simp [posAnc] at h
    | cons b bs => simp [posLt]
  | cons a as ih =>
    cases q with
    | nil => simp [posAnc] at h
    | cons b bs =>
      obtain ⟨hb, ht⟩ := (posAnc_cons a b as bs).mp h
      exact (posLt_cons a b as bs).mpr (Or.inr ⟨hb, ih ht⟩)

/-- If `p < m < q` in tuple order and `p` is a strict ancestor of `q`, then
`p` is also a strict ancestor of `m`: positions lying between an ancestor and
its descendant share that ancestor. -/
theorem posAnc_of_between {p m q : List Nat} (h1 : posLt p m = true) (h2 : posLt m q = true)
    (h3 : posAnc p q = true) : posAnc p m = true := by
  induction p generalizing m q with
  | nil =>
    cases m with
    | nil => simp [posLt] at h1
    | cons b bs => simp [posAnc]
  | cons a as ih =>
    cases q with
    | nil => simp [posAnc] at h3
    | cons c cs =>
      cases m with
      | nil => simp [posLt] at h1
      | cons b bs =>
        obtain ⟨hc, ht⟩ := (posAnc_cons a c as cs).mp h3
        subst hc
        rcases (posLt_cons a b as bs).mp h1 with hb | ⟨hb, hm1⟩
        · -- a < b, yet m = b::bs < q = a::cs forces b ≤ a, contradiction
          rcases (posLt_cons b a bs cs).mp h2 with hb2 | ⟨hb2, _⟩ <;> omega
        · subst hb
          rcases (posLt_cons a a bs cs).mp h2 with hb2 | ⟨_, hm2⟩
          · omega
          · exact (posAnc_cons a a as bs).mpr ⟨rfl, ih hm1 hm2 ht⟩

theorem posAnc_trans {p q r : List Nat} (h1 : posAnc p q = true) (h2 : posAnc q r = true) :
    posAnc p r = true := by
  simp only [posAnc, Bool.and_eq_true, decide_eq_true_eq, beq_iff_eq] at h1 h2 ⊢
  obtain ⟨l1, t1⟩ := h1
  obtain ⟨l2, t2⟩ := h2
  refine ⟨Nat.lt_trans l1 l2, ?_⟩
  have : (r.take q.length).take p.length = r.take p.length := by
    rw [List.take_take, Nat.min_eq_left (Nat.le_of_lt l1)]
  rw [← this, t2, t1]

/-! ## Python string primitives

Python strings are sequences of characters; we implement the handful of
`str` methods the code uses (`split`, `startswith`, `strip`, `upper`, `in`)
directly on the character list `String.data`, so that concrete runs reduce
inside the kernel. -/

/-- If `s` starts with `pre`, return the rest of `s`; an empty `pre` is
treated as "no match" (the code never splits on an empty separator). -/
def dropLeads : List Char → List Char → Option (List Char)
  | [], _ => none
  | _ :: _, [] => none
  | p :: ps, c :: cs => if p = c then (match ps with
      | [] => some cs
      | _ :: _ => dropLeads ps cs) else none

/-- Python `s.startswith(pre)` (for non-empty `pre`; every name prefix used
by the code is non-empty). -/
def pyStartsWith (s pre : String) : Bool := (dropLeads pre.data s.data).isSome

/-- Core of Python `s.split(sep)` on character lists (`sep` non-empty).
The fuel argument is always instantiated with more than the length of `s`,
and each step consumes at least one character, so the fuel never runs out;
it only makes the recursion structural. -/
def splitSteps (sep : List Char) : Nat → List Char → List Char → List (List Char)
  | 0, s, acc => [acc.reverse ++ s]
  | _ + 1, [], acc => [acc.reverse]
  | fuel + 1, c :: cs, acc =>
    match dropLeads sep (c :: cs) with
    | some rest => acc.reverse :: splitSteps sep fuel rest []
    | none => splitSteps sep fuel cs (c :: acc)

/-- Python `s.split(sep)` (list of fragments, keeps empty fragments). -/
def pySplit (s sep : String) : List (List Char) :=
  splitSteps sep.data (s.data.length + 1) s.data []

/-- Python whitespace for `str.strip()`. -/
def isSpaceChar (c : Char) : Bool :=
  c = ' ' || c = '\t' || c = '\n' || c = '\r' || c = '\x0b' || c = '\x0c'

/-- Python `s.strip()`. -/
def pyStrip (s : String) : String :=
  String.mk (((s.data.dropWhile isSpaceChar).reverse.dropWhile isSpaceChar).reverse)

/-- ASCII upper-casing of one character (Python `str.upper` on the data of
this pipeline, which is ASCII). -/
def upChar (c : Char) : Char :=
  if 97 ≤ c.toNat ∧ c.toNat ≤ 122 then Char.ofNat (c.toNat - 32) else c

/-- Python `s.upper()`. -/
def pyUpper (s : String) : String := String.mk (s.data.map upChar)

/-! ## Winning-condition selection (merge.py, `pick_single_condition_path`) -/

/-- Number of dot-separated segments, `len(s.split("."))`. -/
def segCount (s : String) : Nat := (pySplit s ".").length

/-- Containment of the literal substring ".ACTION." (`".ACTION." in c`). -/
def hasActionSub (s : String) : Bool := (pySplit s ".ACTION.").length ≥ 2

/-- One step of Python `max(cands, key=...)`: keep the current best unless the
next candidate is strictly better, so the first maximal element wins. -/
def pickMax (best x : String) : String := if segCount best < segCount x then x else best

/-- Python `max(cands, key=lambda s: len(s.split(".")))` returns the first
element attaining the maximal segment count; `longest` returns "" on an
empty candidate list. -/
def longestSeg : List String → String
  | [] => ""
  | c :: cs => cs.foldl pickMax c

/-- Embedding of `pick_single_condition_path` (merge.py lines 62-74). -/
def pick_single_condition_path (condNames : List String) : String :=
  let targeting := condNames.filter (fun c => pyStartsWith c "POLICY.TARGETING")
  let toggles := condNames.filter (fun c => pyStartsWith c "POLICY.TOGGLES")
  if targeting ≠ [] then
    let actionFirst := targeting.filter (fun c => hasActionSub c)
    if actionFirst ≠ [] then longestSeg actionFirst else longestSeg targeting
  else if toggles ≠ [] then longestSeg toggles
  else ""

/-- The candidate subset from which `pick_single_condition_path` actually
selects: targeting names containing ".ACTION." if any, else all targeting
names, else all toggles names. -/
def pickGroup (condNames : List String) : List String :=
  let targeting := condNames.filter (fun c => pyStartsWith c "POLICY.TARGETING")
  let toggles := condNames.filter (fun c => pyStartsWith c "POLICY.TOGGLES")
  if targeting ≠ [] then
    let actionFirst := targeting.filter (fun c => hasActionSub c)
    if actionFirst ≠ [] then actionFirst else targeting
  else toggles

theorem longestFold_mem (cs : List String) : ∀ b, cs.foldl pickMax b ∈ b :: cs := by
  induction cs with
  | nil => intro b; simp
  | cons x xs ih =>
    intro b
    have h := ih (pickMax b x)
    rw [List.foldl_cons]
    rcases List.mem_cons.mp h with h | h
    · rw [h]
      unfold pickMax
      split <;> simp
    · exact List.mem_cons.mpr (Or.inr (List.mem_cons.mpr (Or.inr h)))

theorem longestFold_max (cs : List String) :
    ∀ b, ∀ c ∈ b :: cs, segCount c ≤ segCount (cs.foldl pickMax b) := by
  induction cs with
  | nil =>
    intro b c hc
    rcases List.mem_cons.mp hc with h | h
    · subst h; simp
    · simp at h
  | cons x xs ih =>
    intro b c hc
    rw [List.foldl_cons]
    have hb : segCount b ≤ segCount (pickMax b x) := by
      unfold pickMax; split <;> omega
    have hx : segCount x ≤ segCount (pickMax b x) := by
      unfold pickMax; split <;> omega
    have htop := ih (pickMax b x) (pickMax b x) (List.mem_cons.mpr (Or.inl rfl))
    rcases List.mem_cons.mp hc with h | h
    · subst h; omega
    · rcases List.mem_cons.mp h with h | h
      · subst h; omega
      · exact ih (pickMax b x) c (List.mem_cons.mpr (Or.inr h))

theorem longestSeg_mem (l : List String) (hl : l ≠ []) : longestSeg l ∈ l := by
  match l with
  | c :: cs => exact longestFold_mem cs c

theorem longestSeg_max (l : List String) : ∀ c ∈ l, segCount c ≤ segCount (longestSeg l) := by
  match l with
  | [] => intro c hc; simp at hc
  | c :: cs => exact longestFold_max cs c

theorem pickGroup_perm {l1 l2 : List String} (hperm : l1.Perm l2) :
    (pickGroup l1).Perm (pickGroup l2) := by
  unfold pickGroup
  have ht := hperm.filter (fun c => pyStartsWith c "POLICY.TARGETING")
  have hg := hperm.filter (fun c => pyStartsWith c "POLICY.TOGGLES")
  have hteq : (l1.filter (fun c => pyStartsWith c "POLICY.TARGETING")) = [] ↔
      (l2.filter (fun c => pyStartsWith c "POLICY.TARGETING")) = [] := by
    constructor
    · intro h; rw [h] at ht; exact ht.symm.eq_nil
    · intro h; rw [h] at ht; exact ht.eq_nil
  have ha := ht.filter (fun c => hasActionSub c)
  have haeq : ((l1.filter (fun c => pyStartsWith c "POLICY.TARGETING")).filter
        (fun c => hasActionSub c)) = [] ↔
      ((l2.filter (fun c => pyStartsWith c "POLICY.TARGETING")).filter
        (fun c => hasActionSub c)) = [] := by
    constructor
    · intro h; rw [h] at ha; exact ha.symm.eq_nil
    · intro h; rw [h] at ha; exact ha.eq_nil
  by_cases h1 : (l1.filter (fun c => pyStartsWith c "POLICY.TARGETING")) = []
  · simp only [h1, hteq.mp h1, ne_eq, not_true_eq_false, if_false, ite_false]
    exact hg
  · have h2 : (l2.filter (fun c => pyStartsWith c "POLICY.TARGETING")) ≠ [] := by
      intro hc; exact h1 (hteq.mpr hc)
    simp only [ne_eq, h1, h2, not_false_eq_true, if_true]
    by_cases h3 : ((l1.filter (fun c => pyStartsWith c "POLICY.TARGETING")).filter
        (fun c => hasActionSub c)) = []
    · simp only [h3, haeq.mp h3, not_true_eq_false, if_false, ite_false]
      exact ht
    · have h4 : ((l2.filter (fun c => pyStartsWith c "POLICY.TARGETING")).filter
          (fun c => hasActionSub c)) ≠ [] := by
        intro hc; exact h3 (haeq.mpr hc)
      simp only [h3, h4, not_false_eq_true, if_true]
      exact ha

theorem pick_eq_group (l : List String) :
    pick_single_condition_path l =
      (if pickGroup l = [] then "" else longestSeg (pickGroup l)) := by
  unfold pick_single_condition_path pickGroup
  by_cases h1 : (l.filter (fun c => pyStartsWith c "POLICY.TARGETING")) = []
  · by_cases h2 : (l.filter (fun c => pyStartsWith c "POLICY.TOGGLES")) = []
    · simp only [h1, ne_eq, not_true_eq_false, if_false, h2, ite_self, if_true]
    · simp only [h1, ne_eq, not_true_eq_false, if_false, h2, not_false_eq_true, if_true]
  · by_cases h3 : ((l.filter (fun c => pyStartsWith c "POLICY.TARGETING")).filter
        (fun c => hasActionSub c)) = []
    · simp only [ne_eq, h1, not_false_eq_true, if_true, h3, not_true_eq_false, if_false]
    · simp only [ne_eq, h1, not_false_eq_true, if_true, h3, if_false]

/-- C2, counterexample: `pick_single_condition_path` is not a function of the
unordered candidate set.  The two lists below contain the same names (they
are permutations of one another) and both names have three dot-separated
segments, yet the selected winner differs: Python `max` keeps the first
maximal element of the iteration order, and the iteration order of
`list(set(...))` at the call site is not determined by the unordered set. -/
theorem pick_single_condition_path_not_set_deterministic :
    pick_single_condition_path ["POLICY.TARGETING.A", "POLICY.TARGETING.B"] =
      "POLICY.TARGETING.A" ∧
    pick_single_condition_path ["POLICY.TARGETING.B", "POLICY.TARGETING.A"] =
      "POLICY.TARGETING.B" ∧
    List.Perm ["POLICY.TARGETING.A", "POLICY.TARGETING.B"]
      ["POLICY.TARGETING.B", "POLICY.TARGETING.A"] ∧
    pick_single_condition_path ["POLICY.TARGETING.A", "POLICY.TARGETING.B"] ≠
      pick_single_condition_path ["POLICY.TARGETING.B", "POLICY.TARGETING.A"] := by
  refine ⟨by decide, by decide, ?_, by decide⟩
  exact List.Perm.swap _ _ _

/-- C2, amended: `pick_single_condition_path` partitions the candidates by
the POLICY.TARGETING / POLICY.TOGGLES name prefixes, prefers targeting
candidates containing ".ACTION." when any exist, picks a candidate of the
resulting group with the maximal number of dot-separated segments (the empty
string when both groups are empty), and is invariant under reordering of the
candidate list whenever the maximal segment count in that group is attained
by a unique name (ties are broken by iteration order, the first maximal
candidate winning). -/
theorem pick_single_condition_path_amended (l1 l2 : List String) (hperm : l1.Perm l2)
    (huniq : ∀ a ∈ pickGroup l1, ∀ b ∈ pickGroup l1,
      (∀ c ∈ pickGroup l1, segCount c ≤ segCount a) →
      (∀ c ∈ pickGroup l1, segCount c ≤ segCount b) → a = b) :
    pick_single_condition_path l1 = pick_single_condition_path l2 ∧
    (pickGroup l1 = [] → pick_single_condition_path l1 = "") ∧
    (pickGroup l1 ≠ [] → pick_single_condition_path l1 ∈ pickGroup l1 ∧
      ∀ c ∈ pickGroup l1, segCount c ≤ segCount (pick_single_condition_path l1)) := by
  have hgp := pickGroup_perm hperm
  refine ⟨?_, ?_, ?_⟩
  · by_cases h1 : pickGroup l1 = []
    · have h2 : pickGroup l2 = [] := by rw [h1] at hgp; exact hgp.symm.eq_nil
      rw [pick_eq_group, pick_eq_group, if_pos h1, if_pos h2]
    · have h2 : pickGroup l2 ≠ [] := by
        intro hc; rw [hc] at hgp; exact h1 hgp.eq_nil
      rw [pick_eq_group, pick_eq_group, if_neg h1, if_neg h2]
      have m1 : longestSeg (pickGroup l1) ∈ pickGroup l1 := longestSeg_mem _ h1
      have m2 : longestSeg (pickGroup l2) ∈ pickGroup l1 :=
        hgp.mem_iff.mpr (longestSeg_mem _ h2)
      have x1 : ∀ c ∈ pickGroup l1, segCount c ≤ segCount (longestSeg (pickGroup l1)) :=
        longestSeg_max _
      have x2 : ∀ c ∈ pickGroup l1, segCount c ≤ segCount (longestSeg (pickGroup l2)) := by
        intro c hc
        exact longestSeg_max _ c (hgp.mem_iff.mp hc)
      exact huniq _ m1 _ m2 x1 x2
  · intro h1
    rw [pick_eq_group, if_pos h1]
  · intro h1
    rw [pick_eq_group, if_neg h1]
    exact ⟨longestSeg_mem _ h1, longestSeg_max _⟩

/-- Witness for the amended C2 theorem at a concrete input. -/
theorem pick_single_condition_path_amended_witness :
    pick_single_condition_path ["POLICY.TOGGLES.X", "POLICY.TARGETING.X.ACTION.Y"] =
      pick_single_condition_path ["POLICY.TARGETING.X.ACTION.Y", "POLICY.TOGGLES.X"] ∧
    (pickGroup ["POLICY.TOGGLES.X", "POLICY.TARGETING.X.ACTION.Y"] = [] →
      pick_single_condition_path ["POLICY.TOGGLES.X", "POLICY.TARGETING.X.ACTION.Y"] = "") ∧
    (pickGroup ["POLICY.TOGGLES.X", "POLICY.TARGETING.X.ACTION.Y"] ≠ [] →
      pick_single_condition_path ["POLICY.TOGGLES.X", "POLICY.TARGETING.X.ACTION.Y"] ∈
        pickGroup ["POLICY.TOGGLES.X", "POLICY.TARGETING.X.ACTION.Y"] ∧
      ∀ c ∈ pickGroup ["POLICY.TOGGLES.X", "POLICY.TARGETING.X.ACTION.Y"],
        segCount c ≤ segCount
          (pick_single_condition_path ["POLICY.TOGGLES.X", "POLICY.TARGETING.X.ACTION.Y"])) :=
  pick_single_condition_path_amended _ _ (List.Perm.swap _ _ _) (by decide)

/-! ## Drift classification (exporters.py, `export_environment_drift_html`)

For each row the exporter collects `vals = [str(row[c]).strip() for c in
env_cols if pd.notna(row[c])]` (environment cells that are not null; a cell
is modelled as `Option String`, `none` standing for a pandas null) and sets
`drift = len(set(vals)) > 1` and `all_off = all(v.upper() == "OFF" for v in
vals if v)`. -/

/-- The stripped non-null environment values of one row. -/
def driftVals (cells : List (Option String)) : List String :=
  (cells.filterMap id).map pyStrip

/-- Embedding of the exporter's drift flag `len(set(vals)) > 1`. -/
def driftFlag (cells : List (Option String)) : Bool :=
  decide (((driftVals cells).dedup).length > 1)

/-- Embedding of the exporter's fully-off flag
`all(v.upper() == "OFF" for v in vals if v)`. -/
def allOffFlag (cells : List (Option String)) : Bool :=
  ((driftVals cells).filter (fun v => v ≠ "")).all (fun v => pyUpper v == "OFF")

/-- The drift rule in the words of the claim: more than one distinct value
among the columns holding a non-blank value. -/
def driftFlagSpec (cells : List (Option String)) : Bool :=
  decide ((((driftVals cells).filter (fun v => v ≠ "")).dedup).length > 1)

/-- C9, counterexample: a row whose environment columns hold "OFF" and the
blank string is classified as drifting by the code (the blank is a value for
`len(set(vals)) > 1`), while the claim's rule — look only at non-blank
values — classifies it as not drifting. -/
theorem driftFlag_counts_blank_counterexample :
    driftFlag [some "OFF", some ""] = true ∧
    driftFlagSpec [some "OFF", some ""] = false := by
  constructor <;> decide

theorem dedup_length_gt_one {α : Type} [DecidableEq α] (l : List α) :
    l.dedup.length > 1 ↔ ∃ a ∈ l, ∃ b ∈ l, a ≠ b := by
  constructor
  · intro h
    match hd : l.dedup with
    | [] => rw [hd] at h; simp at h
    | [x] => rw [hd] at h; simp at h
    | x :: y :: rest =>
      have hnd := l.nodup_dedup
      rw [hd] at hnd
      have hxy : x ≠ y := by
        intro hc
        subst hc
        simp [List.nodup_cons] at hnd
      have hx : x ∈ l := by
        rw [← List.mem_dedup, hd]; simp
      have hy : y ∈ l := by
        rw [← List.mem_dedup, hd]; simp
      exact ⟨x, hx, y, hy, hxy⟩
  · rintro ⟨a, ha, b, hb, hab⟩
    have ha' : a ∈ l.dedup := List.mem_dedup.mpr ha
    have hb' : b ∈ l.dedup := List.mem_dedup.mpr hb
    match hd : l.dedup with
    | [] => rw [hd] at ha'; simp at ha'
    | [x] =>
      rw [hd] at ha' hb'
      simp at ha' hb'
      exact absurd (ha'.trans hb'.symm) hab
    | x :: y :: rest => simp

/-- C9, amended: the exporter's drift flag is set exactly when two of the
row's non-null environment cells differ after stripping — a blank cell counts
as a value, so blank-versus-"OFF" already drifts; the fully-off flag is set
exactly when every non-blank stripped value upper-cases to "OFF". -/
theorem drift_classification_amended (cells : List (Option String)) :
    (driftFlag cells = true ↔ ∃ a ∈ driftVals cells, ∃ b ∈ driftVals cells, a ≠ b) ∧
    (allOffFlag cells = true ↔ ∀ v ∈ driftVals cells, v ≠ "" → pyUpper v = "OFF") := by
  constructor
  · rw [driftFlag, decide_eq_true_iff]
    exact dedup_length_gt_one _
  · rw [allOffFlag, List.all_eq_true]
    constructor
    · intro h v hv hne
      have := h v (List.mem_filter.mpr ⟨hv, by simpa using hne⟩)
      simpa using this
    · intro h v hv
      have hm := List.mem_filter.mp hv
      simpa using h v hm.1 (by simpa using hm.2)

/-! ## Propagation (merge.py, `propagate_conditions`)

A merged row carries its position tuple, its `Condition ID` and its
`Value_action` string.  `propagate_conditions` sorts the rows by position
tuple, then walks them once, maintaining a stack of
`(position tuple, stripped value)` pairs: entries whose position is not a
strict ancestor of the current row are popped; a row with a non-empty
`Condition ID` and non-empty stripped value is pushed; otherwise a row with
an empty stripped value inherits the top of the stack. -/

structure MRow where
  pos : List Nat
  condId : String
  val : String
deriving DecidableEq, Repr

/-- Stable insertion into a position-sorted list (models the pandas
`sort_values("_pos_tuple")` step; the pipeline's positions are distinct, so
stability and sort algorithm do not matter there). -/
def insertPos (r : MRow) : List MRow → List MRow
  | [] => [r]
  | x :: xs => if posLe r.pos x.pos then r :: x :: xs else x :: insertPos r xs

def sortByPos (rows : List MRow) : List MRow := rows.foldr insertPos []

/-- Python truthiness test `row.get("Condition ID") and row_val` on the
stripped value: the row both names a condition and resolved a value. -/
def qualifies (r : MRow) : Bool := r.condId ≠ "" && pyStrip r.val ≠ ""

/-- The stack entry pushed for a qualifying row: `(segs, row_val)`. -/
def entryOf (r : MRow) : List Nat × String := (r.pos, pyStrip r.val)

/-- The `while stack and not (... strict ancestor ...): stack.pop()` loop.
The stack is kept top-first. -/
def popStack : List (List Nat × String) → List Nat → List (List Nat × String)
  | [], _ => []
  | e :: rest, segs => if posAnc e.1 segs then e :: rest else popStack rest segs

/-- One loop iteration of `propagate_conditions` for a single row: pop
non-ancestors, then either push the row (non-empty condition id and value),
inherit the top of the stack (empty value), or leave the row unchanged. -/
def stepRow (stack : List (List Nat × String)) (r : MRow) :
    List (List Nat × String) × MRow :=
  let stack1 := popStack stack r.pos
  if qualifies r then (entryOf r :: stack1, r)
  else
    match stack1 with
    | [] => (stack1, r)
    | e :: _ => if pyStrip r.val = "" then (stack1, ⟨r.pos, r.condId, e.2⟩) else (stack1, r)

def propagateGo (stack : List (List Nat × String)) : List MRow → List MRow
  | [] => []
  | r :: rest =>
    let p := stepRow stack r
    p.2 :: propagateGo p.1 rest

/-- Embedding of `propagate_conditions` (merge.py lines 134-155). -/
def propagate_conditions (rows : List MRow) : List MRow :=
  propagateGo [] (sortByPos rows)

/-- The rows of `rows` that are qualifying strict ancestors of position `p`
(in list order). -/
def ancRowsOf (rows : List MRow) (p : List Nat) : List MRow :=
  rows.filter (fun r => qualifies r && posAnc r.pos p)

/-- The stripped value of the nearest qualifying ancestor of `p` in `rows`:
on a position-sorted list the last qualifying strict ancestor in list order
is the deepest one. -/
def nearestAncVal (rows : List MRow) (p : List Nat) : Option String :=
  (ancRowsOf rows p).getLast?.map (fun r => pyStrip r.val)

/-- What the specification's propagation postcondition assigns to row `r`:
its own value if its stripped value is non-empty, else the nearest
qualifying ancestor's stripped value, else its own (empty) value. -/
def expectedVal (rows : List MRow) (r : MRow) : String :=
  if pyStrip r.val ≠ "" then r.val
  else ((nearestAncVal rows r.pos).getD r.val)

/-- The stack contents after the loop has processed exactly the rows of
`done`: the qualifying rows whose position is an ancestor of — or equal
to — the last processed position, deepest first. -/
def stackOf (done : List MRow) : List (List Nat × String) :=
  match done.getLast? with
  | none => []
  | some last =>
    ((done.filter (fun r => qualifies r && (posAnc r.pos last.pos || r.pos == last.pos))).reverse).map
      entryOf

theorem posAnc_iff {p q : List Nat} :
    posAnc p q = true ↔ p.length < q.length ∧ q.take p.length = p := by
  simp [posAnc]

theorem posAnc_self_false (p : List Nat) : posAnc p p = false := by
  simp [posAnc]

theorem popStack_eq_dropWhile (L : List (List Nat × String)) (p : List Nat) :
    popStack L p = L.dropWhile (fun e => !(posAnc e.1 p)) := by
  induction L with
  | nil => rfl
  | cons e rest ih =>
    by_cases h : posAnc e.1 p = true
    · simp [popStack, List.dropWhile_cons, h]
    · rw [Bool.not_eq_true] at h
      simp [popStack, List.dropWhile_cons, h, ih]

theorem dropWhile_not_eq_filter {α : Type} (p : α → Bool) (l : List α)
    (h : l.Pairwise (fun a b => p a = true → p b = true)) :
    l.dropWhile (fun x => !(p x)) = l.filter p := by
  induction l with
  | nil => rfl
  | cons x xs ih =>
    rcases List.pairwise_cons.mp h with ⟨hx, hxs⟩
    by_cases hp : p x = true
    · rw [List.dropWhile_cons, List.filter_cons, if_pos hp]
      simp only [hp, Bool.not_true, Bool.false_eq_true, if_false]
      rw [List.filter_eq_self.mpr (fun b hb => hx b hb hp)]
    · rw [Bool.not_eq_true] at hp
      rw [List.dropWhile_cons, List.filter_cons]
      simp only [hp, Bool.not_false, if_true, Bool.false_eq_true, if_false]
      exact ih hxs

/-- Every element of a strictly position-sorted list is the last element or
sorts strictly below it. -/
theorem sorted_le_getLast {done : List MRow} {last : MRow}
    (hs : done.Pairwise (fun a b => posLt a.pos b.pos = true))
    (hl : last ∈ done.getLast?) :
    ∀ r ∈ done, r = last ∨ posLt r.pos last.pos = true := by
  intro r hr
  have hsplit := List.dropLast_append_getLast? last hl
  rw [← hsplit] at hs hr
  rcases List.mem_append.mp hr with h | h
  · right
    have := (List.pairwise_append.mp hs).2.2
    exact this r h last (by simp)
  · left
    simpa using h

/-- Two ancestors-or-self of the same position are comparable: the lower one
in tuple order is a strict ancestor of the higher one. -/
theorem posAnc_of_common {a b L : List Nat}
    (ha : posAnc a L = true ∨ a = L) (hb : posAnc b L = true ∨ b = L)
    (hlt : posLt a b = true) : posAnc a b = true := by
  have ha' : a.length ≤ L.length ∧ L.take a.length = a := by
    rcases ha with h | h
    · have := posAnc_iff.mp h
      exact ⟨Nat.le_of_lt this.1, this.2⟩
    · subst h; simp
  have hb' : b.length ≤ L.length ∧ L.take b.length = b := by
    rcases hb with h | h
    · have := posAnc_iff.mp h
      exact ⟨Nat.le_of_lt this.1, this.2⟩
    · subst h; simp
  rcases Nat.lt_trichotomy a.length b.length with hlen | hlen | hlen
  · refine posAnc_iff.mpr ⟨hlen, ?_⟩
    have : (L.take b.length).take a.length = L.take a.length := by
      rw [List.take_take, Nat.min_eq_left (Nat.le_of_lt hlen)]
    rw [hb'.2] at this
    rw [this, ha'.2]
  · -- equal lengths force a = b, contradicting strictness
    exfalso
    have : a = b := by
      rw [← ha'.2, ← hb'.2, hlen]
    rw [this] at hlt
    rw [posLt_irrefl] at hlt
    exact absurd hlt (by simp)
  · -- b would be a strict ancestor of a, contradicting a < b
    exfalso
    have hba : posAnc b a = true := by
      refine posAnc_iff.mpr ⟨hlen, ?_⟩
      have : (L.take a.length).take b.length = L.take b.length := by
        rw [List.take_take, Nat.min_eq_left (Nat.le_of_lt hlen)]
      rw [ha'.2] at this
      rw [this, hb'.2]
    have := posLt_of_posAnc hba
    rw [posLt_asymm hlt] at this
    exact absurd this (by simp)

/-- Popping the stack for the next row keeps exactly the qualifying strict
ancestors of that row's position. -/
theorem popStack_stackOf (done : List MRow) (t : MRow)
    (hs : done.Pairwise (fun a b => posLt a.pos b.pos = true))
    (hlt : ∀ r ∈ done, posLt r.pos t.pos = true) :
    popStack (stackOf done) t.pos = ((ancRowsOf done t.pos).reverse).map entryOf := by
  cases hgl : done.getLast? with
  | none =>
    have hd : done = [] := List.getLast?_eq_none_iff.mp hgl
    subst hd
    simp [stackOf, ancRowsOf, popStack]
  | some last =>
    have hlast_mem : last ∈ done := by
      have := List.dropLast_append_getLast? last hgl
      rw [← this]
      simp
    have hstack : stackOf done =
        ((done.filter
          (fun r => qualifies r && (posAnc r.pos last.pos || r.pos == last.pos))).reverse).map
          entryOf := by
      unfold stackOf
      rw [hgl]
    have hpw : (((done.filter
        (fun r => qualifies r && (posAnc r.pos last.pos || r.pos == last.pos))).reverse).map
        entryOf).Pairwise (fun a b =>
          (fun e : List Nat × String => posAnc e.1 t.pos) a = true →
          (fun e : List Nat × String => posAnc e.1 t.pos) b = true) := by
      rw [List.pairwise_map, List.pairwise_reverse]
      have hsub : (done.filter
          (fun r => qualifies r && (posAnc r.pos last.pos || r.pos == last.pos))).Pairwise
          (fun a b => posLt a.pos b.pos = true) :=
        hs.sublist (List.filter_sublist done)
      refine hsub.imp_of_mem ?_
      intro a b ha hb hab
      intro hbanc
      have haeq := (List.mem_filter.mp ha).2
      have hbeq := (List.mem_filter.mp hb).2
      have haeq' : posAnc a.pos last.pos = true ∨ a.pos = last.pos := by
        rw [Bool.and_eq_true, Bool.or_eq_true] at haeq
        rcases haeq.2 with h | h
        · exact Or.inl h
        · exact Or.inr (by simpa using h)
      have hbeq' : posAnc b.pos last.pos = true ∨ b.pos = last.pos := by
        rw [Bool.and_eq_true, Bool.or_eq_true] at hbeq
        rcases hbeq.2 with h | h
        · exact Or.inl h
        · exact Or.inr (by simpa using h)
      have hprec : posAnc a.pos b.pos = true := posAnc_of_common haeq' hbeq' hab
      exact posAnc_trans hprec hbanc
    have hdw := dropWhile_not_eq_filter
      (fun e : List Nat × String => posAnc e.1 t.pos)
      (((done.filter
        (fun r => qualifies r && (posAnc r.pos last.pos || r.pos == last.pos))).reverse).map
        entryOf) hpw
    rw [hstack, popStack_eq_dropWhile, hdw]
    rw [List.filter_map, List.filter_reverse, List.filter_filter]
    unfold ancRowsOf
    congr 1
    congr 1
    apply List.filter_congr
    intro r hr
    by_cases hq : qualifies r = true
    · by_cases hanc : posAnc r.pos t.pos = true
      · have hancEq : (posAnc r.pos last.pos || r.pos == last.pos) = true := by
          rcases sorted_le_getLast hs hgl r hr with h | h
          · subst h; simp
          · rw [posAnc_of_between h (hlt last hlast_mem) hanc]; simp
        simp [entryOf, hq, hanc, hancEq]
      · rw [Bool.not_eq_true] at hanc
        simp [entryOf, hq, hanc]
    · rw [Bool.not_eq_true] at hq
      simp [entryOf, hq]

theorem ancRowsOf_append (done rest : List MRow) (p : List Nat)
    (h : ∀ q ∈ rest, posAnc q.pos p = false) :
    ancRowsOf (done ++ rest) p = ancRowsOf done p := by
  unfold ancRowsOf
  rw [List.filter_append]
  have : rest.filter (fun r => qualifies r && posAnc r.pos p) = [] := by
    rw [List.filter_eq_nil_iff]
    intro q hq
    rw [h q hq]
    simp
  rw [this, List.append_nil]

/-- One loop iteration, started from the stack contents for `done`, produces
the stack contents for `done ++ [t]` and gives row `t` exactly the value the
propagation postcondition prescribes. -/
theorem stepRow_spec (done : List MRow) (t : MRow)
    (hs : done.Pairwise (fun a b => posLt a.pos b.pos = true))
    (hlt : ∀ r ∈ done, posLt r.pos t.pos = true) :
    stepRow (stackOf done) t =
      (stackOf (done ++ [t]), ⟨t.pos, t.condId, expectedVal done t⟩) := by
  have hpop := popStack_stackOf done t hs hlt
  have hne : ∀ r ∈ done, (r.pos == t.pos) = false := by
    intro r hr
    have hlt' := hlt r hr
    rw [beq_eq_false_iff_ne]
    intro hc
    rw [hc, posLt_irrefl] at hlt'
    exact absurd hlt' (by simp)
  have hfilter : (done ++ [t]).filter
      (fun r => qualifies r && (posAnc r.pos t.pos || r.pos == t.pos)) =
      ancRowsOf done t.pos ++ (if qualifies t then [t] else []) := by
    rw [List.filter_append]
    congr 1
    · unfold ancRowsOf
      apply List.filter_congr
      intro r hr
      rw [hne r hr]
      simp
    · simp [List.filter_cons, posAnc_self_false]
  have hstackNew : stackOf (done ++ [t]) =
      ((ancRowsOf done t.pos ++ (if qualifies t then [t] else [])).reverse).map entryOf := by
    unfold stackOf
    rw [List.getLast?_concat]
    dsimp only
    rw [hfilter]
  by_cases hq : qualifies t = true
  · have hstrip : pyStrip t.val ≠ "" := by
      unfold qualifies at hq
      rw [Bool.and_eq_true, decide_eq_true_iff, decide_eq_true_iff] at hq
      exact hq.2
    unfold stepRow
    rw [hpop, hstackNew]
    simp only [hq, if_true, List.reverse_append, List.reverse_cons, List.reverse_nil,
      List.nil_append, List.singleton_append, List.map_cons]
    unfold expectedVal
    rw [if_pos hstrip]
  · have hq' : qualifies t = false := by
      rw [Bool.not_eq_true] at hq
      exact hq
    rcases List.eq_nil_or_concat (ancRowsOf done t.pos) with hF | ⟨L, b, hF⟩
    · -- no qualifying ancestor: the stack is empty and the row is unchanged
      unfold stepRow
      rw [hpop, hstackNew, hF, hq']
      simp only [List.reverse_nil, List.map_nil, List.nil_append, if_false,
        Bool.false_eq_true, List.append_nil]
      unfold expectedVal nearestAncVal
      rw [hF]
      simp
    · -- the nearest qualifying ancestor is the last element of `ancRowsOf`
      rw [List.concat_eq_append] at hF
      unfold stepRow
      rw [hpop, hstackNew, hF, hq']
      simp only [Bool.false_eq_true, if_false, List.append_nil, List.reverse_append,
        List.reverse_cons, List.reverse_nil, List.nil_append, List.singleton_append,
        List.map_cons]
      unfold expectedVal nearestAncVal
      rw [hF, List.getLast?_concat]
      by_cases hstrip : pyStrip t.val = ""
      · rw [if_pos hstrip]
        simp [entryOf, hstrip]
      · rw [if_neg hstrip]
        simp only [ne_eq, hstrip, not_false_eq_true, if_true]

theorem propagateGo_spec (todo : List MRow) : ∀ (done : List MRow),
    (done ++ todo).Pairwise (fun a b => posLt a.pos b.pos = true) →
    propagateGo (stackOf done) todo =
      todo.map (fun r => ⟨r.pos, r.condId, expectedVal (done ++ todo) r⟩) := by
  induction todo with
  | nil => intro done _; simp [propagateGo]
  | cons t rest ih =>
    intro done hs
    have hparts := List.pairwise_append.mp hs
    have h1 := hparts.1
    have h2 := hparts.2.1
    have h3 := hparts.2.2
    have hlt : ∀ r ∈ done, posLt r.pos t.pos = true := by
      intro r hr
      exact h3 r hr t (by simp)
    have hstep := stepRow_spec done t h1 hlt
    have hanc : ancRowsOf (done ++ t :: rest) t.pos = ancRowsOf done t.pos := by
      apply ancRowsOf_append
      intro q hq
      rcases List.mem_cons.mp hq with h | h
      · subst h; exact posAnc_self_false _
      · have htq : posLt t.pos q.pos = true := (List.pairwise_cons.mp h2).1 q h
        rw [Bool.eq_false_iff]
        intro hc
        have := posLt_of_posAnc hc
        rw [posLt_asymm htq] at this
        exact absurd this (by simp)
    have hexp : expectedVal done t = expectedVal (done ++ t :: rest) t := by
      unfold expectedVal nearestAncVal
      rw [hanc]
    have hrest : ((done ++ [t]) ++ rest).Pairwise (fun a b => posLt a.pos b.pos = true) := by
      rw [List.append_assoc, List.singleton_append]
      exact hs
    have hihr := ih (done ++ [t]) hrest
    simp only [propagateGo, hstep, hihr]
    rw [List.map_cons]
    congr 1
    · rw [← hexp]
    · apply List.map_congr_left
      intro r _
      have : (done ++ [t]) ++ rest = done ++ t :: rest := by
        rw [List.append_assoc, List.singleton_append]
      rw [this]

theorem sortByPos_eq_self (rows : List MRow)
    (hs : rows.Pairwise (fun a b => posLe a.pos b.pos = true)) : sortByPos rows = rows := by
  induction rows with
  | nil => rfl
  | cons r rs ih =>
    rcases List.pairwise_cons.mp hs with ⟨hr, hrs⟩
    unfold sortByPos at *
    simp only [List.foldr_cons]
    rw [ih hrs]
    cases rs with
    | nil => rfl
    | cons x xs =>
      unfold insertPos
      rw [if_pos (hr x (by simp))]

/-- C1, amended: when `propagate_conditions` runs on rows that are sorted by
position as dotted-integer tuples with pairwise-distinct positions (which is
what strict sortedness states), every row keeps its position and condition
id, a row with a non-empty stripped value keeps its own value, and every
other row receives the stripped value of its nearest qualifying strict
ancestor — the last row in list order whose position is a strict ancestor
and which has both a non-empty condition id and a non-empty stripped
value — or keeps its own (empty) value when no such ancestor exists. -/
theorem propagate_conditions_amended (rows : List MRow)
    (hs : rows.Pairwise (fun a b => posLt a.pos b.pos = true)) :
    propagate_conditions rows =
      rows.map (fun r => ⟨r.pos, r.condId, expectedVal rows r⟩) := by
  unfold propagate_conditions
  have hle : rows.Pairwise (fun a b => posLe a.pos b.pos = true) := by
    apply hs.imp
    intro a b h
    unfold posLe
    rw [h]
    simp
  rw [sortByPos_eq_self rows hle]
  have hgo := propagateGo_spec rows [] (by simpa using hs)
  simpa using hgo

/-- C1, counterexample: on rows sorted by position (ties permitted by
sorting) the postcondition fails.  Here the fourth row `[1,1,1]` is empty
and its nearest qualifying ancestor is the second row, at position `[1,1]`
with value "b"; but the third row — a non-qualifying duplicate of position
`[1,1]` — pops the `[1,1]` stack entry, so the code propagates "a" from
position `[1]` instead: the final value is neither the row's own value ""
nor the nearest qualifying ancestor's value "b". -/
theorem propagate_conditions_counterexample :
    (propagate_conditions ([⟨[1], "c", "a"⟩, ⟨[1, 1], "c", "b"⟩,
        ⟨[1, 1], "", ""⟩, ⟨[1, 1, 1], "", ""⟩] : List MRow)).map (fun r => r.val) =
      ["a", "b", "a", "a"] ∧
    List.Pairwise (fun a b : MRow => posLe a.pos b.pos = true)
      ([⟨[1], "c", "a"⟩, ⟨[1, 1], "c", "b"⟩, ⟨[1, 1], "", ""⟩,
        ⟨[1, 1, 1], "", ""⟩] : List MRow) ∧
    nearestAncVal ([⟨[1], "c", "a"⟩, ⟨[1, 1], "c", "b"⟩, ⟨[1, 1], "", ""⟩,
        ⟨[1, 1, 1], "", ""⟩] : List MRow) [1, 1, 1] = some "b" ∧
    ("a" : String) ≠ "" ∧ ("a" : String) ≠ "b" := by
  refine ⟨by decide, by decide, by decide, by decide, by decide⟩

/-- Witness for the amended C1 theorem at a concrete two-row input: the
child row `[1,1]` inherits the stripped value of its qualifying parent. -/
theorem propagate_conditions_amended_witness :
    propagate_conditions ([⟨[1], "c", "a"⟩, ⟨[1, 1], "", ""⟩] : List MRow) =
      ([⟨[1], "c", "a"⟩, ⟨[1, 1], "", ""⟩] : List MRow).map
        (fun r => ⟨r.pos, r.condId,
          expectedVal ([⟨[1], "c", "a"⟩, ⟨[1, 1], "", ""⟩] : List MRow) r⟩) :=
  propagate_conditions_amended _ (by decide)

/-! ## Node graphs (JSON-ish values and Python dicts)

Deployment-package nodes are Python dicts with JSON values.  `JVal` models
the field values (strings, numbers, booleans, null, arrays); a node is an
association list from field names to values, and the id-keyed lookup tables
built by the code are association lists keyed by `JVal` in which a later
entry wins (Python dict-comprehension overwrite semantics).  Array fields
hold scalar entries (node ids); deeper nesting does not occur in the
package format and is not modelled. -/

inductive JScal : Type
  | s (v : String)
  | n (v : Int)
  | b (v : Bool)
  | null
deriving DecidableEq

inductive JVal : Type
  | s (v : String)
  | n (v : Int)
  | b (v : Bool)
  | null
  | arr (l : List JScal)
deriving DecidableEq

/-- Array elements re-enter the traversals as ordinary values. -/
def JScal.toVal : JScal → JVal
  | .s v => .s v
  | .n v => .n v
  | .b v => .b v
  | .null => .null

/-- Python truthiness of a field value. -/
def JVal.truthy : JVal → Bool
  | .s v => v ≠ ""
  | .n v => v ≠ 0
  | .b v => v
  | .null => false
  | .arr l => !(l.isEmpty)

/-- Python values that can be dict keys or set members; a list raises
TypeError (unhashable) when used as one. -/
def JVal.hashable : JVal → Bool
  | .arr _ => false
  | _ => true

/-- Python repr() of a scalar value. -/
def pyReprScalar : JScal → String
  | .s v => String.mk (Char.ofNat 39 :: v.data ++ [Char.ofNat 39])
  | .n v => toString v
  | .b true => "True"
  | .b false => "False"
  | .null => "None"

/-- Python str() of a field value. -/
def pyStr : JVal → String
  | .s v => v
  | .n v => toString v
  | .b true => "True"
  | .b false => "False"
  | .null => "None"
  | .arr l => "[" ++ String.intercalate ", " (l.map pyReprScalar) ++ "]"

/-- A graph node: a Python dict from field names to values. -/
abbrev PyDict := List (String × JVal)

/-- `d.get(k)`. -/
def pyGet (d : PyDict) (k : String) : Option JVal :=
  (d.find? (fun e => e.1 == k)).map (fun e => e.2)

/-- Python `a or b` on two optional field values (None and falsy values
fall through to the second operand). -/
def pyOr (a b : Option JVal) : Option JVal :=
  match a with
  | some v => if v.truthy then some v else b
  | none => b

/-- An id-keyed lookup table (`{d["id"]: d for d in data if "id" in d}`). -/
abbrev JMap := List (JVal × PyDict)

def buildIdMap (data : List PyDict) : JMap :=
  data.filterMap (fun d => (pyGet d "id").map (fun i => (i, d)))

/-- Dict lookup: the last binding of a key wins, as in a Python dict
comprehension that overwrites earlier duplicates. -/
def mapGet (m : JMap) (k : JVal) : Option PyDict :=
  (m.reverse.find? (fun e => e.1 == k)).map (fun e => e.2)

/-- Python `id_lookup.get(x) or attr_defs.get(x)` (an empty dict is falsy). -/
def pyOrDict (a b : Option PyDict) : Option PyDict :=
  match a with
  | some d => if d.isEmpty then b else some d
  | none => b

def mapKeys (m : JMap) : List JVal := m.map (fun e => e.1)

theorem mapGet_mem_keys {m : JMap} {k : JVal} {d : PyDict} (h : mapGet m k = some d) :
    k ∈ mapKeys m := by
  unfold mapGet at h
  cases hf : m.reverse.find? (fun e => e.1 == k) with
  | none => rw [hf] at h; simp at h
  | some e =>
    have hmem : e ∈ m.reverse := List.mem_of_find?_eq_some hf
    have hkey := List.find?_some hf
    simp only [beq_iff_eq] at hkey
    rw [List.mem_reverse] at hmem
    unfold mapKeys
    rw [← hkey]
    exact List.mem_map_of_mem _ hmem

/-- The number of keys of the lookup tables not yet visited: the
termination measure of the visited-set traversals. -/
def unvisited (keys seen : List JVal) : Nat :=
  (keys.filter (fun a => !(seen.contains a))).length

theorem length_filter_le_filter {α : Type} (p q : α → Bool) (l : List α)
    (h : ∀ a ∈ l, p a = true → q a = true) :
    (l.filter p).length ≤ (l.filter q).length := by
  induction l with
  | nil => simp
  | cons x xs ih =>
    have ihx := ih (fun a ha hpa => h a (by simp [ha]) hpa)
    by_cases hp : p x = true
    · rw [List.filter_cons, if_pos hp, List.filter_cons, if_pos (h x (by simp) hp)]
      simpa using ihx
    · rw [List.filter_cons, if_neg (by simpa using hp), List.filter_cons]
      split
      · simp
        omega
      · exact ihx

theorem unvisited_le (keys seen : List JVal) (k : JVal) :
    unvisited keys (k :: seen) ≤ unvisited keys seen := by
  unfold unvisited
  apply length_filter_le_filter
  intro a _ hp
  simp only [List.contains_cons, Bool.not_eq_true', Bool.or_eq_false_iff] at hp ⊢
  exact hp.2

theorem unvisited_lt (keys seen : List JVal) (k : JVal)
    (hk : k ∈ keys) (hns : seen.contains k = false) :
    unvisited keys (k :: seen) < unvisited keys seen := by
  unfold unvisited
  induction keys with
  | nil => simp at hk
  | cons x xs ih =>
    rcases List.mem_cons.mp hk with hx | hx
    · subst hx
      rw [List.filter_cons, List.filter_cons]
      have h1 : ((k :: seen).contains k) = true := by
        simp [List.contains_cons]
      rw [h1, hns]
      simp only [Bool.not_true, Bool.false_eq_true, if_false, Bool.not_false, if_true,
        List.length_cons]
      have hle := unvisited_le xs seen k
      unfold unvisited at hle
      omega
    · by_cases hxk : x = k
      · subst hxk
        rw [List.filter_cons, List.filter_cons]
        have h1 : ((x :: seen).contains x) = true := by
          simp [List.contains_cons]
        rw [h1, hns]
        simp only [Bool.not_true, Bool.false_eq_true, if_false, Bool.not_false, if_true,
          List.length_cons]
        have hle := unvisited_le xs seen x
        unfold unvisited at hle
        omega
      · rw [List.filter_cons, List.filter_cons]
        have hsame : ((k :: seen).contains x) = (seen.contains x) := by
          simp only [List.contains_cons]
          have : (x == k) = false := by
            rw [Bool.eq_false_iff]
            intro hc
            exact hxk (by rwa [beq_iff_eq] at hc)
          rw [this]
          simp
        rw [hsame]
        by_cases hcx : seen.contains x = true
        · rw [hcx]
          simp only [Bool.not_true, Bool.false_eq_true, if_false]
          exact ih hx
        · rw [Bool.not_eq_true] at hcx
          rw [hcx]
          simp only [Bool.not_false, if_true, List.length_cons]
          have := ih hx
          omega

theorem pyOrDict_mapGet_mem {idlk atdf : JMap} {v : JVal} {d : PyDict}
    (h : pyOrDict (mapGet idlk v) (mapGet atdf v) = some d) :
    v ∈ mapKeys idlk ++ mapKeys atdf := by
  cases h1 : mapGet idlk v with
  | some x => exact List.mem_append.mpr (Or.inl (mapGet_mem_keys h1))
  | none =>
    rw [h1] at h
    unfold pyOrDict at h
    exact List.mem_append.mpr (Or.inr (mapGet_mem_keys h))

/-! ## Condition resolver (merge.py, `resolve_constants` and
`collect_condition_def_ids_from_tree`)

Both traversals are embedded as worklists in which the head of the pending
list is processed next, mirroring the shared mutable `seen` set of the
source; the collected result is read as a set, which makes the processing
order immaterial.  A Python TypeError (iterating a non-iterable field
value, or using an unhashable value as a set member) is modelled as
`none`. -/

/-- Python `for child in node.get(field, [])`: absent fields iterate as the
empty default, list fields iterate their elements, string fields iterate
their characters as one-character strings, anything else raises. -/
def pyIterOpt : Option JVal → Option (List JVal)
  | none => some []
  | some (.arr l) => some (l.map JScal.toVal)
  | some (.s v) => some (v.data.map (fun c => JVal.s (String.mk [c])))
  | some _ => none

/-- The truthy single-valued link fields of a boolean/comparison/statement
node, in the order the code tests them. -/
def rcSingles (node : PyDict) : List JVal :=
  ["inputNode", "lhsInputNode", "rhsInputNode", "guardNode"].filterMap
    (fun f => match pyGet node f with
      | some v => if v.truthy then some v else none
      | none => none)

def boolLikeChildren (node : PyDict) : Option (List JVal) :=
  match pyIterOpt (pyGet node "inputNodes"), pyIterOpt (pyGet node "statements") with
  | some l1, some l2 => some (rcSingles node ++ l1 ++ l2)
  | _, _ => none

/-- The values on which `resolve_constants` recurses from one node, by node
class; `none` models a TypeError while building them. -/
def rcChildren (node : PyDict) : Option (List JVal) :=
  match pyGet node "class" with
  | some (.s "ConditionDefinition") =>
    match pyGet node "condition" with
    | some v => if v.truthy then some [v] else some []
    | none => some []
  | some (.s "ConditionReferenceNode") =>
    some [(pyGet node "definitionId").getD JVal.null]
  | some (.s "BooleanLogicNode") => boolLikeChildren node
  | some (.s "ComparisonNode") => boolLikeChildren node
  | some (.s "StatementNode") => boolLikeChildren node
  | _ => some []

/-- The constants contributed by one node: a ConstantNode's `value` or
`constant` (stringified) when not None. -/
def rcConst (node : PyDict) : List String :=
  if pyGet node "class" == some (JVal.s "ConstantNode") then
    match pyOr (pyGet node "value") (pyGet node "constant") with
    | some v => [pyStr v]
    | none => []
  else []

theorem lex_step {u1 u2 a b : Nat} (hu : u1 ≤ u2) (hab : a < b) :
    Prod.Lex (· < ·) (· < ·) (u1, a) (u2, b) := by
  rcases Nat.lt_or_ge u1 u2 with h | h
  · exact Prod.Lex.left _ _ h
  · have : u1 = u2 := by omega
    subst this
    exact Prod.Lex.right _ hab

theorem lex_left {u1 u2 a b : Nat} (h : u1 < u2) :
    Prod.Lex (· < ·) (· < ·) (u1, a) (u2, b) :=
  Prod.Lex.left _ _ h

def resolveConstantsGo (idlk atdf : JMap) (pending seen : List JVal) (acc : List String) :
    Option (List String) :=
  match pending with
  | [] => some acc
  | v :: rest =>
    if v.truthy = false then resolveConstantsGo idlk atdf rest seen acc
    else if v.hashable = false then none
    else if seen.contains v then resolveConstantsGo idlk atdf rest seen acc
    else
      match hnode : pyOrDict (mapGet idlk v) (mapGet atdf v) with
      | none => resolveConstantsGo idlk atdf rest (v :: seen) acc
      | some node =>
        if node.isEmpty then resolveConstantsGo idlk atdf rest (v :: seen) acc
        else
          match rcChildren node with
          | none => none
          | some cs => resolveConstantsGo idlk atdf (cs ++ rest) (v :: seen) (acc ++ rcConst node)
termination_by (unvisited (mapKeys idlk ++ mapKeys atdf) seen, pending.length)
decreasing_by
  all_goals first
    | (refine lex_step (Nat.le_refl _) ?_
       simp)
    | (refine lex_left (unvisited_lt _ _ _ ?_ ?_)
       · exact pyOrDict_mapGet_mem hnode
       · rw [Bool.eq_false_iff]
         assumption)
    | (refine lex_step (unvisited_le _ _ _) ?_
       simp)

/-- Embedding of `resolve_constants` (merge.py lines 7-35), read as the set
of collected constants: the nested `list(set(results))` calls of the source
deduplicate at every level but the final value, as a set, is the set of all
constants collected at visited ConstantNodes, and the iteration order of
the final `list(set(...))` is hash-dependent and deliberately left
unspecified here. -/
def resolve_constants (idlk atdf : JMap) (nodeId : JVal) : Option (Finset String) :=
  (resolveConstantsGo idlk atdf [nodeId] [] []).map List.toFinset

/-- The child node ids pushed on the stack by
`collect_condition_def_ids_from_tree`: single-valued fields only when their
value is a string, `inputNodes` only when it is a list. -/
def collectChildren (node : PyDict) : List JVal :=
  (["inputNode", "guardNode", "condition", "lhsInputNode", "rhsInputNode"].filterMap
    (fun k => match pyGet node k with
      | some (.s v) => some (JVal.s v)
      | _ => none))
  ++ (match pyGet node "inputNodes" with
      | some (.arr l) => l.map JScal.toVal
      | _ => [])

/-- The `definitionId or ref or conditionId` alias chain of a
ConditionReferenceNode. -/
def refIdOf (node : PyDict) : Option JVal :=
  pyOr (pyGet node "definitionId") (pyOr (pyGet node "ref") (pyGet node "conditionId"))

def collectGo (idMap : JMap) (stack seen acc : List JVal) : Option (List JVal) :=
  match stack with
  | [] => some acc
  | nid :: rest =>
    if nid.truthy = false then collectGo idMap rest seen acc
    else if nid.hashable = false then none
    else if seen.contains nid then collectGo idMap rest seen acc
    else
      match hnode : mapGet idMap nid with
      | none => collectGo idMap rest (nid :: seen) acc
      | some node =>
        if node.isEmpty then collectGo idMap rest (nid :: seen) acc
        else
          match (if pyGet node "class" == some (JVal.s "ConditionReferenceNode")
                 then refIdOf node else none) with
          | some r =>
            if r.truthy then
              if r.hashable then
                collectGo idMap (collectChildren node ++ rest) (nid :: seen) (acc ++ [r])
              else none
            else collectGo idMap (collectChildren node ++ rest) (nid :: seen) acc
          | none => collectGo idMap (collectChildren node ++ rest) (nid :: seen) acc
termination_by (unvisited (mapKeys idMap) seen, stack.length)
decreasing_by
  all_goals first
    | (refine lex_step (Nat.le_refl _) ?_
       simp)
    | (refine lex_left (unvisited_lt _ _ _ ?_ ?_)
       · exact mapGet_mem_keys hnode
       · rw [Bool.eq_false_iff]
         assumption)
    | (refine lex_step (unvisited_le _ _ _) ?_
       simp)

/-- Embedding of `collect_condition_def_ids_from_tree` (merge.py lines
38-59), read as the set of collected reference ids. -/
def collect_condition_def_ids_from_tree (idMap : JMap) (rootNodeId : JVal) :
    Option (Finset JVal) :=
  (collectGo idMap [rootNodeId] [] []).map List.toFinset

/-- Step-indexed twin of `resolveConstantsGo`, used to evaluate concrete
instances: the outer `none` marks exhausted fuel, and
`resolveConstantsSteps_agree` shows any result obtained with some fuel is
the result of the loop. -/
def resolveConstantsSteps (idlk atdf : JMap) :
    Nat → List JVal → List JVal → List String → Option (Option (List String))
  | 0, _, _, _ => none
  | fuel + 1, pending, seen, acc =>
    match pending with
    | [] => some (some acc)
    | v :: rest =>
      if v.truthy = false then resolveConstantsSteps idlk atdf fuel rest seen acc
      else if v.hashable = false then some none
      else if seen.contains v then resolveConstantsSteps idlk atdf fuel rest seen acc
      else
        match pyOrDict (mapGet idlk v) (mapGet atdf v) with
        | none => resolveConstantsSteps idlk atdf fuel rest (v :: seen) acc
        | some node =>
          if node.isEmpty then resolveConstantsSteps idlk atdf fuel rest (v :: seen) acc
          else
            match rcChildren node with
            | none => some none
            | some cs =>
              resolveConstantsSteps idlk atdf fuel (cs ++ rest) (v :: seen) (acc ++ rcConst node)

theorem resolveConstantsGo_nil (idlk atdf : JMap) (seen : List JVal) (acc : List String) :
    resolveConstantsGo idlk atdf [] seen acc = some acc := by
  rw [resolveConstantsGo.eq_def]

theorem resolveConstantsGo_cons (idlk atdf : JMap) (v : JVal) (rest seen : List JVal)
    (acc : List String) :
    resolveConstantsGo idlk atdf (v :: rest) seen acc =
      (if v.truthy = false then resolveConstantsGo idlk atdf rest seen acc
       else if v.hashable = false then none
       else if seen.contains v then resolveConstantsGo idlk atdf rest seen acc
       else
         match pyOrDict (mapGet idlk v) (mapGet atdf v) with
         | none => resolveConstantsGo idlk atdf rest (v :: seen) acc
         | some node =>
           if node.isEmpty then resolveConstantsGo idlk atdf rest (v :: seen) acc
           else
             match rcChildren node with
             | none => none
             | some cs =>
               resolveConstantsGo idlk atdf (cs ++ rest) (v :: seen) (acc ++ rcConst node)) := by
  rw [resolveConstantsGo.eq_def]
  dsimp only
  by_cases h1 : v.truthy = false
  · rw [if_pos h1, if_pos h1]
  · rw [if_neg h1, if_neg h1]
    by_cases h2 : v.hashable = false
    · rw [if_pos h2, if_pos h2]
    · rw [if_neg h2, if_neg h2]
      by_cases h3 : seen.contains v = true
      · rw [if_pos h3, if_pos h3]
      · rw [if_neg h3, if_neg h3]
        split
        · rename_i heq
          rw [heq]
        · rename_i node heq
          rw [heq]

theorem resolveConstantsSteps_agree (idlk atdf : JMap) :
    ∀ (fuel : Nat) (pending seen : List JVal) (acc : List String) (r : Option (List String)),
    resolveConstantsSteps idlk atdf fuel pending seen acc = some r →
    resolveConstantsGo idlk atdf pending seen acc = r := by
  intro fuel
  induction fuel with
  | zero => intro pending seen acc r h; simp [resolveConstantsSteps] at h
  | succ fuel ih =>
    intro pending seen acc r h
    cases pending with
    | nil =>
      simp only [resolveConstantsSteps, Option.some.injEq] at h
      rw [resolveConstantsGo_nil]
      exact h
    | cons v rest =>
      simp only [resolveConstantsSteps] at h
      rw [resolveConstantsGo_cons]
      by_cases h1 : v.truthy = false
      · rw [if_pos h1] at h ⊢
        exact ih _ _ _ _ h
      · rw [if_neg h1] at h ⊢
        by_cases h2 : v.hashable = false
        · rw [if_pos h2] at h ⊢
          simp only [Option.some.injEq] at h
          exact h
        · rw [if_neg h2] at h ⊢
          by_cases h3 : seen.contains v = true
          · rw [if_pos h3] at h ⊢
            exact ih _ _ _ _ h
          · rw [if_neg h3] at h ⊢
            cases h4 : pyOrDict (mapGet idlk v) (mapGet atdf v) with
            | none =>
              rw [h4] at h
              dsimp only at h
              exact ih _ _ _ _ h
            | some node =>
              rw [h4] at h
              dsimp only at h
              dsimp only
              by_cases h5 : node.isEmpty = true
              · rw [if_pos h5] at h ⊢
                exact ih _ _ _ _ h
              · rw [if_neg h5] at h ⊢
                cases h6 : rcChildren node with
                | none =>
                  rw [h6] at h
                  exact Option.some.inj h
                | some cs =>
                  rw [h6] at h
                  exact ih _ _ _ _ h

/-- Step-indexed twin of `collectGo`, used to evaluate concrete instances. -/
def collectSteps (idMap : JMap) : Nat → List JVal → List JVal → List JVal →
    Option (Option (List JVal))
  | 0, _, _, _ => none
  | fuel + 1, stack, seen, acc =>
    match stack with
    | [] => some (some acc)
    | nid :: rest =>
      if nid.truthy = false then collectSteps idMap fuel rest seen acc
      else if nid.hashable = false then some none
      else if seen.contains nid then collectSteps idMap fuel rest seen acc
      else
        match mapGet idMap nid with
        | none => collectSteps idMap fuel rest (nid :: seen) acc
        | some node =>
          if node.isEmpty then collectSteps idMap fuel rest (nid :: seen) acc
          else
            match (if pyGet node "class" == some (JVal.s "ConditionReferenceNode")
                   then refIdOf node else none) with
            | some r =>
              if r.truthy then
                if r.hashable then
                  collectSteps idMap fuel (collectChildren node ++ rest) (nid :: seen)
                    (acc ++ [r])
                else some none
              else collectSteps idMap fuel (collectChildren node ++ rest) (nid :: seen) acc
            | none => collectSteps idMap fuel (collectChildren node ++ rest) (nid :: seen) acc

theorem collectGo_nil (idMap : JMap) (seen acc : List JVal) :
    collectGo idMap [] seen acc = some acc := by
  rw [collectGo.eq_def]

theorem collectGo_cons (idMap : JMap) (nid : JVal) (rest seen acc : List JVal) :
    collectGo idMap (nid :: rest) seen acc =
      (if nid.truthy = false then collectGo idMap rest seen acc
       else if nid.hashable = false then none
       else if seen.contains nid then collectGo idMap rest seen acc
       else
         match mapGet idMap nid with
         | none => collectGo idMap rest (nid :: seen) acc
         | some node =>
           if node.isEmpty then collectGo idMap rest (nid :: seen) acc
           else
             match (if pyGet node "class" == some (JVal.s "ConditionReferenceNode")
                    then refIdOf node else none) with
             | some r =>
               if r.truthy then
                 if r.hashable then
                   collectGo idMap (collectChildren node ++ rest) (nid :: seen) (acc ++ [r])
                 else none
               else collectGo idMap (collectChildren node ++ rest) (nid :: seen) acc
             | none => collectGo idMap (collectChildren node ++ rest) (nid :: seen) acc) := by
  rw [collectGo.eq_def]
  dsimp only
  by_cases h1 : nid.truthy = false
  · rw [if_pos h1, if_pos h1]
  · rw [if_neg h1, if_neg h1]
    by_cases h2 : nid.hashable = false
    · rw [if_pos h2, if_pos h2]
    · rw [if_neg h2, if_neg h2]
      by_cases h3 : seen.contains nid = true
      · rw [if_pos h3, if_pos h3]
      · rw [if_neg h3, if_neg h3]
        split
        · rename_i heq
          rw [heq]
        · rename_i node heq
          rw [heq]

theorem collectSteps_agree (idMap : JMap) :
    ∀ (fuel : Nat) (stack seen acc : List JVal) (r : Option (List JVal)),
    collectSteps idMap fuel stack seen acc = some r →
    collectGo idMap stack seen acc = r := by
  intro fuel
  induction fuel with
  | zero => intro stack seen acc r h; simp [collectSteps] at h
  | succ fuel ih =>
    intro stack seen acc r h
    cases stack with
    | nil =>
      simp only [collectSteps, Option.some.injEq] at h
      rw [collectGo_nil]
      exact h
    | cons nid rest =>
      simp only [collectSteps] at h
      rw [collectGo_cons]
      by_cases h1 : nid.truthy = false
      · rw [if_pos h1] at h ⊢
        exact ih _ _ _ _ h
      · rw [if_neg h1] at h ⊢
        by_cases h2 : nid.hashable = false
        · rw [if_pos h2] at h ⊢
          exact Option.some.inj h
        · rw [if_neg h2] at h ⊢
          by_cases h3 : seen.contains nid = true
          · rw [if_pos h3] at h ⊢
            exact ih _ _ _ _ h
          · rw [if_neg h3] at h ⊢
            cases h4 : mapGet idMap nid with
            | none =>
              rw [h4] at h
              exact ih _ _ _ _ h
            | some node =>
              rw [h4] at h
              dsimp only at h
              dsimp only
              by_cases h5 : node.isEmpty = true
              · rw [if_pos h5] at h ⊢
                exact ih _ _ _ _ h
              · rw [if_neg h5] at h ⊢
                cases h6 : (if pyGet node "class" == some (JVal.s "ConditionReferenceNode")
                    then refIdOf node else none) with
                | none =>
                  rw [h6] at h
                  exact ih _ _ _ _ h
                | some rr =>
                  rw [h6] at h
                  dsimp only at h
                  dsimp only
                  by_cases h7 : rr.truthy = true
                  · rw [if_pos h7] at h ⊢
                    by_cases h8 : rr.hashable = true
                    · rw [if_pos h8] at h ⊢
                      exact ih _ _ _ _ h
                    · rw [if_neg h8] at h ⊢
                      exact Option.some.inj h
                  · rw [if_neg h7] at h ⊢
                    exact ih _ _ _ _ h

theorem mapGet_mem {m : JMap} {k : JVal} {d : PyDict} (h : mapGet m k = some d) :
    (k, d) ∈ m := by
  unfold mapGet at h
  cases hf : m.reverse.find? (fun e => e.1 == k) with
  | none => rw [hf] at h; simp at h
  | some e =>
    have hmem : e ∈ m.reverse := List.mem_of_find?_eq_some hf
    have hkey := List.find?_some hf
    simp only [beq_iff_eq] at hkey
    rw [hf] at h
    simp at h
    rw [List.mem_reverse] at hmem
    have : (k, d) = e := by
      rw [← hkey, ← h]
    rw [this]
    exact hmem

theorem pyOrDict_mem {idlk atdf : JMap} {v : JVal} {d : PyDict}
    (h : pyOrDict (mapGet idlk v) (mapGet atdf v) = some d) :
    (v, d) ∈ idlk ∨ (v, d) ∈ atdf := by
  unfold pyOrDict at h
  cases h1 : mapGet idlk v with
  | none =>
    rw [h1] at h
    exact Or.inr (mapGet_mem h)
  | some x =>
    rw [h1] at h
    dsimp only at h
    by_cases hx : x.isEmpty = true
    · rw [if_pos hx] at h
      exact Or.inr (mapGet_mem h)
    · rw [if_neg hx] at h
      simp only [Option.some.injEq] at h
      subst h
      exact Or.inl (mapGet_mem h1)

theorem rcConst_sound {node : PyDict} {s : String} (h : s ∈ rcConst node) :
    pyGet node "class" = some (JVal.s "ConstantNode") ∧
    ∃ v, pyOr (pyGet node "value") (pyGet node "constant") = some v ∧ s = pyStr v := by
  unfold rcConst at h
  by_cases hc : (pyGet node "class" == some (JVal.s "ConstantNode")) = true
  · rw [if_pos hc] at h
    cases ho : pyOr (pyGet node "value") (pyGet node "constant") with
    | none => rw [ho] at h; simp at h
    | some v =>
      rw [ho] at h
      simp only [List.mem_singleton] at h
      exact ⟨by rwa [beq_iff_eq] at hc, v, rfl, h⟩
  · rw [if_neg hc] at h
    simp at h

/-- Everything `collect_condition_def_ids_from_tree` collects is the alias
reference id of some ConditionReferenceNode present in the lookup table:
the result is finite and sound for every input graph, cyclic or not. -/
theorem collectGo_sound (idMap : JMap) (stack seen acc : List JVal) :
    ∀ out, collectGo idMap stack seen acc = some out → ∀ r ∈ out,
      r ∈ acc ∨ ∃ k node, (k, node) ∈ idMap ∧
        pyGet node "class" = some (JVal.s "ConditionReferenceNode") ∧
        refIdOf node = some r ∧ r.truthy = true := by
  induction stack, seen, acc using collectGo.induct idMap with
  | case1 seen acc =>
    intro out hout r hr
    rw [collectGo_nil] at hout
    left
    rw [Option.some.inj hout]
    exact hr
  | case2 seen acc v rest h1 ih =>
    rw [collectGo_cons, if_pos h1]
    exact ih
  | case3 seen acc v rest h1 h2 =>
    intro out hout
    rw [collectGo_cons, if_neg h1, if_pos h2] at hout
    exact absurd hout (by simp)
  | case4 seen acc v rest h1 h2 h3 ih =>
    rw [collectGo_cons, if_neg h1, if_neg h2, if_pos h3]
    exact ih
  | case5 seen acc v rest h1 h2 h3 hmap ih =>
    rw [collectGo_cons, if_neg h1, if_neg h2, if_neg h3, hmap]
    exact ih
  | case6 seen acc v rest h1 h2 h3 node hmap hemp ih =>
    rw [collectGo_cons, if_neg h1, if_neg h2, if_neg h3, hmap]
    dsimp only
    rw [if_pos hemp]
    exact ih
  | case7 seen acc v rest h1 h2 h3 node hmap hemp rr href htr hh ih =>
    rw [collectGo_cons, if_neg h1, if_neg h2, if_neg h3, hmap]
    dsimp only
    rw [if_neg hemp]
    rw [dite_eq_ite] at href
    rw [href]
    dsimp only
    rw [if_pos htr, if_pos hh]
    intro out hout x hx
    rcases ih out hout x hx with hmem | hsound
    · rcases List.mem_append.mp hmem with hmem | hmem
      · exact Or.inl hmem
      · right
        have hx' : x = rr := by simpa using hmem
        subst hx'
        have hcls : pyGet node "class" = some (JVal.s "ConditionReferenceNode") := by
          by_cases hc : (pyGet node "class" == some (JVal.s "ConditionReferenceNode")) = true
          · rwa [beq_iff_eq] at hc
          · rw [if_neg hc] at href
            exact absurd href (by simp)
        have hrefid : refIdOf node = some x := by
          by_cases hc : (pyGet node "class" == some (JVal.s "ConditionReferenceNode")) = true
          · rw [if_pos hc] at href
            exact href
          · rw [if_neg hc] at href
            exact absurd href (by simp)
        exact ⟨v, node, mapGet_mem hmap, hcls, hrefid, htr⟩
    · exact Or.inr hsound
  | case8 seen acc v rest h1 h2 h3 node hmap hemp rr href htr hh =>
    intro out hout
    rw [collectGo_cons, if_neg h1, if_neg h2, if_neg h3, hmap] at hout
    dsimp only at hout
    rw [if_neg hemp] at hout
    rw [dite_eq_ite] at href
    rw [href] at hout
    dsimp only at hout
    rw [if_pos htr, if_neg hh] at hout
    exact absurd hout (by simp)
  | case9 seen acc v rest h1 h2 h3 node hmap hemp rr href htr ih =>
    rw [collectGo_cons, if_neg h1, if_neg h2, if_neg h3, hmap]
    dsimp only
    rw [if_neg hemp]
    rw [dite_eq_ite] at href
    rw [href]
    dsimp only
    rw [if_neg htr]
    exact ih
  | case10 seen acc v rest h1 h2 h3 node hmap hemp href ih =>
    rw [collectGo_cons, if_neg h1, if_neg h2, if_neg h3, hmap]
    dsimp only
    rw [if_neg hemp]
    rw [dite_eq_ite] at href
    rw [href]
    exact ih

/-- Everything `resolve_constants` collects is the stringified
`value`/`constant` of some ConstantNode present in one of the two lookup
tables: the result is finite and sound for every input graph, cyclic or
not. -/
theorem resolveConstantsGo_sound (idlk atdf : JMap) (pending seen : List JVal)
    (acc : List String) :
    ∀ out, resolveConstantsGo idlk atdf pending seen acc = some out → ∀ s ∈ out,
      s ∈ acc ∨ ∃ k node, ((k, node) ∈ idlk ∨ (k, node) ∈ atdf) ∧
        pyGet node "class" = some (JVal.s "ConstantNode") ∧
        ∃ v, pyOr (pyGet node "value") (pyGet node "constant") = some v ∧ s = pyStr v := by
  induction pending, seen, acc using resolveConstantsGo.induct idlk atdf with
  | case1 seen acc =>
    intro out hout s hs
    rw [resolveConstantsGo_nil] at hout
    left
    rw [Option.some.inj hout]
    exact hs
  | case2 seen acc v rest h1 ih =>
    rw [resolveConstantsGo_cons, if_pos h1]
    exact ih
  | case3 seen acc v rest h1 h2 =>
    intro out hout
    rw [resolveConstantsGo_cons, if_neg h1, if_pos h2] at hout
    exact absurd hout (by simp)
  | case4 seen acc v rest h1 h2 h3 ih =>
    rw [resolveConstantsGo_cons, if_neg h1, if_neg h2, if_pos h3]
    exact ih
  | case5 seen acc v rest h1 h2 h3 hmap ih =>
    rw [resolveConstantsGo_cons, if_neg h1, if_neg h2, if_neg h3, hmap]
    exact ih
  | case6 seen acc v rest h1 h2 h3 node hmap hemp ih =>
    rw [resolveConstantsGo_cons, if_neg h1, if_neg h2, if_neg h3, hmap]
    dsimp only
    rw [if_pos hemp]
    exact ih
  | case7 seen acc v rest h1 h2 h3 node hmap hemp hch =>
    intro out hout
    rw [resolveConstantsGo_cons, if_neg h1, if_neg h2, if_neg h3, hmap] at hout
    dsimp only at hout
    rw [if_neg hemp, hch] at hout
    exact absurd hout (by simp)
  | case8 seen acc v rest h1 h2 h3 node hmap hemp cs hch ih =>
    rw [resolveConstantsGo_cons, if_neg h1, if_neg h2, if_neg h3, hmap]
    dsimp only
    rw [if_neg hemp, hch]
    intro out hout s hs
    rcases ih out hout s hs with hmem | hsound
    · rcases List.mem_append.mp hmem with hmem | hmem
      · exact Or.inl hmem
      · right
        obtain ⟨hcls, vv, hor, hval⟩ := rcConst_sound hmem
        exact ⟨v, node, pyOrDict_mem hmap, hcls, vv, hor, hval⟩
    · exact Or.inr hsound

/-- C3, counterexample: `resolve_constants` does not treat a present but
non-list `inputNodes` as "no edge".  Here `inputNodes` holds the string
"ab"; the code iterates its characters as node ids, reaches the ConstantNode
with id "a" and collects its value, so the result is nonempty although the
only link to that constant sits in a non-list field. -/
theorem resolve_constants_nonlist_edge_counterexample :
    resolve_constants (buildIdMap
      [[("id", JVal.s "root"), ("class", JVal.s "BooleanLogicNode"),
        ("inputNodes", JVal.s "ab")],
       [("id", JVal.s "a"), ("class", JVal.s "ConstantNode"), ("value", JVal.s "oops")]])
      [] (JVal.s "root") = some {"oops"} ∧
    ({"oops"} : Finset String) ≠ (∅ : Finset String) ∧
    pyGet [("id", JVal.s "root"), ("class", JVal.s "BooleanLogicNode"),
      ("inputNodes", JVal.s "ab")] "inputNodes" = some (JVal.s "ab") := by
  have h := resolveConstantsSteps_agree (buildIdMap
      [[("id", JVal.s "root"), ("class", JVal.s "BooleanLogicNode"),
        ("inputNodes", JVal.s "ab")],
       [("id", JVal.s "a"), ("class", JVal.s "ConstantNode"), ("value", JVal.s "oops")]])
      [] 10 [JVal.s "root"] [] [] (some ["oops"]) (by decide)
  refine ⟨?_, by decide, by decide⟩
  unfold resolve_constants
  rw [h]
  decide

/-- C3, amended: both traversals terminate on every finite node graph
(cyclic or not; the totality of the Lean functions is the termination
argument, driven by the visited set) and return finite sets that are sound:
`collectReferencedDefinitionIds` only collects alias reference ids of
ConditionReferenceNodes of the graph — non-string single fields and
non-list `inputNodes` contribute no edge there — and `resolveConstants`
only collects stringified ConstantNode values; the two concrete A-B-A
cycles evaluate to finite results.  Unlike the claim, `resolveConstants`
does not treat a present non-list `inputNodes` as "no edge": a string value
is iterated per character (see the counterexample) and a non-iterable value
raises a TypeError, modelled as `none`. -/
theorem resolver_cycle_safety_amended :
    (∀ (idMap : JMap) (root : JVal) (out : Finset JVal),
      collect_condition_def_ids_from_tree idMap root = some out →
      ∀ r ∈ out, ∃ k node, (k, node) ∈ idMap ∧
        pyGet node "class" = some (JVal.s "ConditionReferenceNode") ∧
        refIdOf node = some r ∧ r.truthy = true) ∧
    (∀ (idlk atdf : JMap) (nodeId : JVal) (out : Finset String),
      resolve_constants idlk atdf nodeId = some out →
      ∀ s ∈ out, ∃ k node, ((k, node) ∈ idlk ∨ (k, node) ∈ atdf) ∧
        pyGet node "class" = some (JVal.s "ConstantNode") ∧
        ∃ v, pyOr (pyGet node "value") (pyGet node "constant") = some v ∧ s = pyStr v) ∧
    resolve_constants (buildIdMap
      [[("id", JVal.s "A"), ("class", JVal.s "BooleanLogicNode"), ("inputNode", JVal.s "B")],
       [("id", JVal.s "B"), ("class", JVal.s "BooleanLogicNode"), ("inputNode", JVal.s "A"),
        ("lhsInputNode", JVal.s "C")],
       [("id", JVal.s "C"), ("class", JVal.s "ConstantNode"), ("value", JVal.s "k")]])
      [] (JVal.s "A") = some {"k"} ∧
    collect_condition_def_ids_from_tree (buildIdMap
      [[("id", JVal.s "A"), ("inputNode", JVal.s "B")],
       [("id", JVal.s "B"), ("class", JVal.s "ConditionReferenceNode"),
        ("definitionId", JVal.s "A"), ("condition", JVal.s "A")]])
      (JVal.s "A") = some {JVal.s "A"} := by
  refine ⟨?_, ?_, ?_, ?_⟩
  · intro idMap root out hout r hr
    unfold collect_condition_def_ids_from_tree at hout
    cases hgo : collectGo idMap [root] [] [] with
    | none => rw [hgo] at hout; simp at hout
    | some l =>
      rw [hgo] at hout
      simp only [Option.map_some', Option.some.injEq] at hout
      subst hout
      rw [List.mem_toFinset] at hr
      rcases collectGo_sound idMap [root] [] [] l hgo r hr with hmem | hsound
      · simp at hmem
      · exact hsound
  · intro idlk atdf nodeId out hout s hs
    unfold resolve_constants at hout
    cases hgo : resolveConstantsGo idlk atdf [nodeId] [] [] with
    | none => rw [hgo] at hout; simp at hout
    | some l =>
      rw [hgo] at hout
      simp only [Option.map_some', Option.some.injEq] at hout
      subst hout
      rw [List.mem_toFinset] at hs
      rcases resolveConstantsGo_sound idlk atdf [nodeId] [] [] l hgo s hs with hmem | hsound
      · simp at hmem
      · exact hsound
  · have h := resolveConstantsSteps_agree (buildIdMap
      [[("id", JVal.s "A"), ("class", JVal.s "BooleanLogicNode"), ("inputNode", JVal.s "B")],
       [("id", JVal.s "B"), ("class", JVal.s "BooleanLogicNode"), ("inputNode", JVal.s "A"),
        ("lhsInputNode", JVal.s "C")],
       [("id", JVal.s "C"), ("class", JVal.s "ConstantNode"), ("value", JVal.s "k")]])
      [] 10 [JVal.s "A"] [] [] (some ["k"]) (by decide)
    unfold resolve_constants
    rw [h]
    decide
  · have h := collectSteps_agree (buildIdMap
      [[("id", JVal.s "A"), ("inputNode", JVal.s "B")],
       [("id", JVal.s "B"), ("class", JVal.s "ConditionReferenceNode"),
        ("definitionId", JVal.s "A"), ("condition", JVal.s "A")]])
      10 [JVal.s "A"] [] [] (some [JVal.s "A"]) (by decide)
    unfold collect_condition_def_ids_from_tree
    rw [h]
    decide

/-- Witness for the amended C3 theorem: applying its soundness half to the
concrete two-node reference cycle pins the collected id to the
ConditionReferenceNode stored in the lookup table. -/
theorem resolver_cycle_safety_amended_witness :
    ∃ k node, (k, node) ∈ buildIdMap
      [[("id", JVal.s "A"), ("inputNode", JVal.s "B")],
       [("id", JVal.s "B"), ("class", JVal.s "ConditionReferenceNode"),
        ("definitionId", JVal.s "A"), ("condition", JVal.s "A")]] ∧
      pyGet node "class" = some (JVal.s "ConditionReferenceNode") ∧
      refIdOf node = some (JVal.s "A") ∧ (JVal.s "A").truthy = true :=
  resolver_cycle_safety_amended.1 _ (JVal.s "A") {JVal.s "A"}
    resolver_cycle_safety_amended.2.2.2 (JVal.s "A") (by decide)

/-! ## Action extraction (actions.py, `extract_actions`)

Python joins `list(set(results))` with ";".  The conversion of the
collected set to a list has a hash-dependent, unspecified order; the
embedding therefore takes the set-to-list conversion as a parameter `ord`,
admissible when it enumerates the underlying set without duplicates.
`fun l => l.dedup` and `fun l => l.dedup.reverse` are both admissible. -/

structure ActRec where
  id : JVal
  fullPath : String
  valueAction : String
deriving DecidableEq

/-- Python `cond.get("name", "").startswith(...)` preparation: the default
"" for a missing name; a non-string name would raise AttributeError on
`startswith` (modelled as `none`). -/
def pyNameStr (cond : PyDict) : Option String :=
  match pyGet cond "name" with
  | none => some ""
  | some (JVal.s v) => some v
  | some _ => none

/-- Embedding of `extract_actions` (actions.py lines 5-18); `ord` models
the `list(set(results))` enumeration of the resolved constant set. -/
def extract_actions (ord : List String → List String) (idlk atdf : JMap) :
    List PyDict → Option (List ActRec)
  | [] => some []
  | cond :: rest =>
    match pyNameStr cond with
    | none => none
    | some name =>
      if pyStartsWith name "ACTION." then
        match pyGet cond "id" with
        | none => none
        | some cid =>
          match resolveConstantsGo idlk atdf [cid] [] [] with
          | none => none
          | some vals0 =>
            match extract_actions ord idlk atdf rest with
            | none => none
            | some recs =>
              some (⟨cid, name, if (ord vals0).isEmpty then ""
                    else String.intercalate ";" (ord vals0)⟩ :: recs)
      else extract_actions ord idlk atdf rest

theorem extract_actions_cons_action (ord : List String → List String) (idlk atdf : JMap)
    (cond : PyDict) (rest : List PyDict) (name : String) (cid : JVal) (vals0 : List String)
    (hname : pyNameStr cond = some name)
    (hsw : pyStartsWith name "ACTION." = true)
    (hid : pyGet cond "id" = some cid)
    (hres : resolveConstantsGo idlk atdf [cid] [] [] = some vals0) :
    extract_actions ord idlk atdf (cond :: rest) =
      match extract_actions ord idlk atdf rest with
      | none => none
      | some recs => some (⟨cid, name, if (ord vals0).isEmpty then ""
          else String.intercalate ";" (ord vals0)⟩ :: recs) := by
  simp only [extract_actions]
  rw [hname]
  dsimp only
  rw [if_pos hsw, hid]
  dsimp only
  rw [hres]

theorem extract_actions_nil (ord : List String → List String) (idlk atdf : JMap) :
    extract_actions ord idlk atdf [] = some [] := by
  simp only [extract_actions]

/-- C7 test graph: an ACTION.* condition definition whose condition resolves
two constants "a" and "b" through a BooleanLogicNode. -/
def c7Cond : PyDict :=
  [("id", JVal.s "AC1"), ("class", JVal.s "ConditionDefinition"),
   ("name", JVal.s "ACTION.FOO"), ("condition", JVal.s "B1")]

def c7Data : List PyDict :=
  [c7Cond,
   [("id", JVal.s "B1"), ("class", JVal.s "BooleanLogicNode"),
    ("inputNodes", JVal.arr [JScal.s "K1", JScal.s "K2"])],
   [("id", JVal.s "K1"), ("class", JVal.s "ConstantNode"), ("value", JVal.s "a")],
   [("id", JVal.s "K2"), ("class", JVal.s "ConstantNode"), ("value", JVal.s "b")]]

def c7Idlk : JMap := buildIdMap c7Data

/-- C7: the claim says the emitted value is the resolved constant set
"deduplicated, sorted, and joined with \";\"", deterministic for a fixed
input.  The source (actions.py line 14) joins `list(set(vals))` without
sorting; the enumeration order of a Python set is hash-dependent.  Both
`fun l => l.dedup` and `fun l => l.dedup.reverse` are admissible
enumerations (duplicate-free, same underlying set), yet on the same graph
and the same condition list they emit "a;b" and "b;a" respectively — and
neither needs to be the sorted join. -/
theorem extract_actions_sorted_join_counterexample :
    (∀ l : List String, (l.dedup).Nodup ∧ (l.dedup).toFinset = l.toFinset) ∧
    (∀ l : List String, (l.dedup.reverse).Nodup ∧ (l.dedup.reverse).toFinset = l.toFinset) ∧
    extract_actions (fun l => l.dedup) c7Idlk [] [c7Cond]
      = some [⟨JVal.s "AC1", "ACTION.FOO", "a;b"⟩] ∧
    extract_actions (fun l => l.dedup.reverse) c7Idlk [] [c7Cond]
      = some [⟨JVal.s "AC1", "ACTION.FOO", "b;a"⟩] ∧
    ("a;b" : String) ≠ "b;a" := by
  have hres : resolveConstantsGo c7Idlk [] [JVal.s "AC1"] [] [] = some ["a", "b"] :=
    resolveConstantsSteps_agree c7Idlk [] 8 [JVal.s "AC1"] [] [] (some ["a", "b"]) (by decide)
  have hdf : ∀ l : List String, l.dedup.toFinset = l.toFinset := by
    intro l; ext a; simp
  refine ⟨fun l => ⟨l.nodup_dedup, hdf l⟩,
          fun l => ⟨List.nodup_reverse.mpr l.nodup_dedup, by rw [List.toFinset_reverse, hdf]⟩,
          ?_, ?_, by decide⟩
  · rw [extract_actions_cons_action _ c7Idlk [] c7Cond [] "ACTION.FOO" (JVal.s "AC1")
        ["a", "b"] (by decide) (by decide) (by decide) hres, extract_actions_nil]
    decide
  · rw [extract_actions_cons_action _ c7Idlk [] c7Cond [] "ACTION.FOO" (JVal.s "AC1")
        ["a", "b"] (by decide) (by decide) (by decide) hres, extract_actions_nil]
    decide

/-- C7 (amended): for every admissible enumeration `ord` of a set collected
as a list (duplicate-free, same underlying set), every record emitted by
`extract_actions` is for a ConditionDefinition whose name starts with
"ACTION.", and its value is the ";"-join of a duplicate-free enumeration of
the constant set returned by `resolve_constants` on its id — the empty
string when that set is empty.  The enumeration order, hence the joined
string, is hash-dependent and not sorted. -/
theorem extract_actions_amended (ord : List String → List String)
    (hord : ∀ l : List String, (ord l).Nodup ∧ (ord l).toFinset = l.toFinset)
    (idlk atdf : JMap) (conds : List PyDict) (out : List ActRec)
    (h : extract_actions ord idlk atdf conds = some out) :
    ∀ r ∈ out, pyStartsWith r.fullPath "ACTION." = true ∧
      ∃ vals0 : List String,
        resolve_constants idlk atdf r.id = some vals0.toFinset ∧
        (ord vals0).Nodup ∧ (ord vals0).toFinset = vals0.toFinset ∧
        r.valueAction = (if (ord vals0).isEmpty then ""
                         else String.intercalate ";" (ord vals0)) ∧
        (vals0.toFinset = ∅ → r.valueAction = "") := by
  induction conds generalizing out with
  | nil =>
    rw [extract_actions_nil] at h
    obtain rfl : ([] : List ActRec) = out := Option.some.inj h
    intro r hr
    exact absurd hr (List.not_mem_nil r)
  | cons cond rest ih =>
    simp only [extract_actions] at h
    cases hn : pyNameStr cond with
    | none => rw [hn] at h; exact absurd h (by simp)
    | some name =>
      rw [hn] at h
      dsimp only at h
      by_cases hsw : pyStartsWith name "ACTION." = true
      · rw [if_pos hsw] at h
        cases hid : pyGet cond "id" with
        | none => rw [hid] at h; exact absurd h (by simp)
        | some cid =>
          rw [hid] at h
          dsimp only at h
          cases hres : resolveConstantsGo idlk atdf [cid] [] [] with
          | none => rw [hres] at h; exact absurd h (by simp)
          | some vals0 =>
            rw [hres] at h
            dsimp only at h
            cases hrest : extract_actions ord idlk atdf rest with
            | none => rw [hrest] at h; exact absurd h (by simp)
            | some recs =>
              rw [hrest] at h
              dsimp only at h
              obtain rfl := (Option.some.inj h).symm
              intro r hr
              rcases List.mem_cons.mp hr with rfl | hr'
              · refine ⟨hsw, vals0, ?_, (hord vals0).1, (hord vals0).2, rfl, ?_⟩
                · rw [resolve_constants, hres]
                  rfl
                · intro he
                  have hempty : ord vals0 = [] := by
                    have h2 := (hord vals0).2
                    rw [he] at h2
                    exact List.toFinset_eq_empty_iff _ |>.mp h2
                  show (if (ord vals0).isEmpty then ""
                        else String.intercalate ";" (ord vals0)) = ""
                  rw [hempty]
                  rfl
              · exact ih recs hrest r hr'
      · rw [if_neg hsw] at h
        intro r hr
        exact ih out h r hr

/-- Witness for `extract_actions_amended` on the concrete graph `c7Data`
with the admissible enumeration `List.dedup`. -/
theorem extract_actions_amended_witness :
    pyStartsWith (ActRec.fullPath ⟨JVal.s "AC1", "ACTION.FOO", "a;b"⟩) "ACTION." = true ∧
    ∃ vals0 : List String,
      resolve_constants c7Idlk [] (ActRec.id ⟨JVal.s "AC1", "ACTION.FOO", "a;b"⟩)
        = some vals0.toFinset ∧
      (vals0.dedup).Nodup ∧ (vals0.dedup).toFinset = vals0.toFinset ∧
      ActRec.valueAction ⟨JVal.s "AC1", "ACTION.FOO", "a;b"⟩
        = (if (vals0.dedup).isEmpty then ""
           else String.intercalate ";" (vals0.dedup)) ∧
      (vals0.toFinset = ∅ →
        ActRec.valueAction ⟨JVal.s "AC1", "ACTION.FOO", "a;b"⟩ = "") := by
  have hres : resolveConstantsGo c7Idlk [] [JVal.s "AC1"] [] [] = some ["a", "b"] :=
    resolveConstantsSteps_agree c7Idlk [] 8 [JVal.s "AC1"] [] [] (some ["a", "b"]) (by decide)
  have hdf : ∀ l : List String, l.dedup.toFinset = l.toFinset := by
    intro l; ext a; simp
  have heval : extract_actions (fun l => l.dedup) c7Idlk [] [c7Cond]
      = some [⟨JVal.s "AC1", "ACTION.FOO", "a;b"⟩] := by
    rw [extract_actions_cons_action _ c7Idlk [] c7Cond [] "ACTION.FOO" (JVal.s "AC1")
        ["a", "b"] (by decide) (by decide) (by decide) hres, extract_actions_nil]
    decide
  exact extract_actions_amended (fun l => l.dedup)
    (fun l => ⟨l.nodup_dedup, hdf l⟩) c7Idlk [] [c7Cond]
    [⟨JVal.s "AC1", "ACTION.FOO", "a;b"⟩] heval
    ⟨JVal.s "AC1", "ACTION.FOO", "a;b"⟩ (by simp)

/-! ## Dataset merge (merge.py, `merge_datasets`, lines 84-107)

Row-level embedding of the two pandas left joins and the Value_action
normalization.  The tree side carries no Value_action column, so after the
second merge the action side's column is `Value_action_action`; the
normalization `fillna("").astype(str).str.strip()` is applied to it.
Unmatched targeting leaves the join key NaN, and the action table's "ID"
keys are always strings, so a NaN key matches nothing in the second join.
Propagation and the entitlement filter of the same function are embedded
separately (`propagate_conditions`). -/

structure TreeRow2 where
  conditionId : String
  fullPath : String
deriving DecidableEq, Repr

structure TargRow where
  id : String
  actionId : String
  valueAction : String
deriving DecidableEq, Repr

structure ActRow where
  id : String
  valueAction : String
deriving DecidableEq, Repr

structure MergedRow where
  conditionId : String
  fullPath : String
  targActionId : Option String
  valueAction : String
deriving DecidableEq, Repr

/-- First left join: tree rows against targeting rows on
`Condition ID = ID`; a left row with no match survives with NaN
(`none`) on the right side, one output row per matching right row
otherwise, in left-then-right order as pandas produces. -/
def joinTargeting (tree : List TreeRow2) (targ : List TargRow) :
    List (TreeRow2 × Option TargRow) :=
  tree.flatMap (fun t =>
    match targ.filter (fun g => g.id == t.conditionId) with
    | [] => [(t, none)]
    | m :: ms => (m :: ms).map (fun g => (t, some g)))

/-- Second left join, on the targeting row's ";"-joined `Action ID` string
against the action table's `ID`. -/
def joinActions (rows : List (TreeRow2 × Option TargRow)) (acts : List ActRow) :
    List (TreeRow2 × Option TargRow × Option ActRow) :=
  rows.flatMap (fun p =>
    match p.2 with
    | none => [(p.1, none, none)]
    | some g =>
      match acts.filter (fun a => a.id == g.actionId) with
      | [] => [(p.1, some g, none)]
      | m :: ms => (m :: ms).map (fun a => (p.1, some g, some a)))

/-- The join portion of `merge_datasets` with the Value_action
normalization `fillna("").astype(str).str.strip()`. -/
def merge_datasets (tree : List TreeRow2) (targ : List TargRow) (acts : List ActRow) :
    List MergedRow :=
  (joinActions (joinTargeting tree targ) acts).map (fun r =>
    ⟨r.1.conditionId, r.1.fullPath, r.2.1.map TargRow.actionId,
     match r.2.2 with
     | none => ""
     | some a => pyStrip a.valueAction⟩)

theorem joinActions_some_inv {rows : List (TreeRow2 × Option TargRow)} {acts : List ActRow}
    {t : TreeRow2} {g? : Option TargRow} {a : ActRow}
    (h : (t, g?, some a) ∈ joinActions rows acts) :
    a ∈ acts ∧ ∃ g : TargRow, g? = some g ∧ a.id = g.actionId ∧ (t, some g) ∈ rows := by
  obtain ⟨p, hp, hin⟩ := List.mem_flatMap.mp h
  rcases p with ⟨t', g'?⟩
  cases g'? with
  | none =>
    simp only [List.mem_singleton, Prod.mk.injEq] at hin
    exact absurd hin.2.2 (by simp)
  | some g =>
    dsimp only at hin
    cases hf : acts.filter (fun a => a.id == g.actionId) with
    | nil =>
      rw [hf] at hin
      simp only [List.mem_singleton, Prod.mk.injEq] at hin
      exact absurd hin.2.2 (by simp)
    | cons m ms =>
      rw [hf] at hin
      obtain ⟨a', ha', heq⟩ := List.mem_map.mp hin
      simp only [Prod.mk.injEq] at heq
      obtain ⟨rfl, hg, ha⟩ := heq
      obtain rfl := Option.some.inj ha
      rw [← hf] at ha'
      obtain ⟨hamem, hbeq⟩ := List.mem_filter.mp ha'
      exact ⟨hamem, g, hg.symm, eq_of_beq hbeq, hp⟩

theorem joinTargeting_some_inv {tree : List TreeRow2} {targ : List TargRow}
    {t : TreeRow2} {g : TargRow}
    (h : (t, some g) ∈ joinTargeting tree targ) :
    g ∈ targ ∧ g.id = t.conditionId ∧ t ∈ tree := by
  obtain ⟨t', ht', hin⟩ := List.mem_flatMap.mp h
  cases hf : targ.filter (fun g => g.id == t'.conditionId) with
  | nil =>
    rw [hf] at hin
    simp only [List.mem_singleton, Prod.mk.injEq] at hin
    exact absurd hin.2 (by simp)
  | cons m ms =>
    rw [hf] at hin
    obtain ⟨g', hg', heq⟩ := List.mem_map.mp hin
    simp only [Prod.mk.injEq] at heq
    obtain ⟨rfl, hg⟩ := heq
    obtain rfl := Option.some.inj hg
    rw [← hf] at hg'
    obtain ⟨hgmem, hbeq⟩ := List.mem_filter.mp hg'
    exact ⟨hgmem, eq_of_beq hbeq, ht'⟩

/-- C6: the claim says a tree row whose winning targeting condition links
to several action definitions gets the deduplicated set of all matching
action values.  In the source the targeting table's "Action ID" cell is the
";"-joined string of ALL linked action ids (targeting.py line 36), and the
second join matches that whole string against single action ids, so a
targeting row linked to actions "a1" and "a2" matches nothing and the
resolved action is the empty string, not the set of the two values. -/
theorem merge_datasets_multiaction_counterexample :
    merge_datasets [⟨"T1", "Root/Entitlement Check"⟩]
        [⟨"T1", "a1;a2", "ACTION.X;ACTION.Y"⟩] [⟨"a1", "x"⟩, ⟨"a2", "y"⟩]
      = [⟨"T1", "Root/Entitlement Check", some "a1;a2", ""⟩] ∧
    (∃ a ∈ ([⟨"a1", "x"⟩, ⟨"a2", "y"⟩] : List ActRow), a.id = "a1") ∧
    (∃ a ∈ ([⟨"a1", "x"⟩, ⟨"a2", "y"⟩] : List ActRow), a.id = "a2") ∧
    (∀ row ∈ merge_datasets [⟨"T1", "Root/Entitlement Check"⟩]
        [⟨"T1", "a1;a2", "ACTION.X;ACTION.Y"⟩] [⟨"a1", "x"⟩, ⟨"a2", "y"⟩],
       row.valueAction ≠ "x" ∧ row.valueAction ≠ "y" ∧ row.valueAction ≠ "x;y") := by
  decide

/-- C6 (amended): every merged row's resolved action is the empty string
when the join found no action match (in particular whenever the targeting
join key is NaN — never the literal "nan"), and otherwise is the stripped
value of an action row whose id equals, as an exact string, the matched
targeting row's ";"-joined "Action ID" cell; a targeting row linked to
several actions therefore resolves to an action value only if some single
action id literally equals the joined string. -/
theorem merge_datasets_amended (tree : List TreeRow2) (targ : List TargRow)
    (acts : List ActRow) (row : MergedRow)
    (hrow : row ∈ merge_datasets tree targ acts) :
    (row.targActionId = none → row.valueAction = "") ∧
    (row.valueAction = "" ∨
      ∃ g ∈ targ, g.id = row.conditionId ∧ row.targActionId = some g.actionId ∧
        ∃ a ∈ acts, a.id = g.actionId ∧ row.valueAction = pyStrip a.valueAction) := by
  obtain ⟨r, hr, rfl⟩ := List.mem_map.mp hrow
  rcases r with ⟨t, g?, a?⟩
  cases a? with
  | none => exact ⟨fun _ => rfl, Or.inl rfl⟩
  | some a =>
    obtain ⟨hamem, g, rfl, haid, hrows⟩ := joinActions_some_inv hr
    obtain ⟨hgmem, hgid, -⟩ := joinTargeting_some_inv hrows
    constructor
    · intro hnone
      exact absurd hnone (by simp [Option.map])
    · exact Or.inr ⟨g, hgmem, hgid, rfl, a, hamem, haid, rfl⟩

/-- Witness for `merge_datasets_amended`: a single-linked targeting row
matches the action "a1" and resolves to its stripped value. -/
theorem merge_datasets_amended_witness :
    (MergedRow.targActionId ⟨"T1", "p", some "a1", "x"⟩ = none →
      MergedRow.valueAction ⟨"T1", "p", some "a1", "x"⟩ = "") ∧
    (MergedRow.valueAction ⟨"T1", "p", some "a1", "x"⟩ = "" ∨
      ∃ g ∈ ([⟨"T1", "a1", "ACTION.X"⟩] : List TargRow),
        g.id = MergedRow.conditionId ⟨"T1", "p", some "a1", "x"⟩ ∧
        MergedRow.targActionId ⟨"T1", "p", some "a1", "x"⟩ = some g.actionId ∧
        ∃ a ∈ ([⟨"a1", " x "⟩] : List ActRow), a.id = g.actionId ∧
          MergedRow.valueAction ⟨"T1", "p", some "a1", "x"⟩ = pyStrip a.valueAction) :=
  merge_datasets_amended [⟨"T1", "p"⟩] [⟨"T1", "a1", "ACTION.X"⟩] [⟨"a1", " x "⟩]
    ⟨"T1", "p", some "a1", "x"⟩ (by decide)

/-! ## Toggle integration (toggles.py, `integrate_toggles` apply loop, lines 205-244)

`regex_from_path` is embedded literally (two Python `str.replace` passes).
The pandas `str.contains(pattern, case=False, na=False, regex=True)` call
delegates to the `re` engine; the embedding abstracts that engine as a
parameter `compilePat : String → Option (String → Bool)`: `some f` is the
compiled case-insensitive search predicate on full paths, `none` models
`re.error` (the loop's `continue` branch).  `na=False` makes a NaN full
path (here `Option.none`) match nothing. -/

structure RowR where
  valueAction : String
  fullPath : Option String
  envs : List (String × String)
deriving DecidableEq, Repr

structure ToggleRec where
  env : String
  action : String
  path : String
deriving DecidableEq, Repr

/-- One pass of Python `s.replace(pat, rep)` on character lists:
left-to-right, non-overlapping, the replacement is not rescanned.  The
fuel is instantiated with the input length; every step consumes at least
one character (the patterns used are non-empty), so it never runs out. -/
def replaceSteps (pat rep : List Char) : Nat → List Char → List Char
  | 0, s => s
  | _ + 1, [] => []
  | fuel + 1, c :: cs =>
    match dropLeads pat (c :: cs) with
    | some rest => rep ++ replaceSteps pat rep fuel rest
    | none => c :: replaceSteps pat rep fuel cs

def pyReplace (s pat rep : String) : String :=
  String.mk (replaceSteps pat.data rep.data s.data.length s.data)

/-- Embedding of `regex_from_path` (toggles.py lines 140-147). -/
def regex_from_path (regex_path : String) : String :=
  pyReplace (pyReplace regex_path "*/" ".*") "*" ".*"

/-- The row mask of toggles.py lines 218-219: exact Value_action equality
and pattern search on the full path (`na=False`: a NaN path matches
nothing). -/
def rowMatches (f : String → Bool) (action : String) (r : RowR) : Bool :=
  (r.valueAction == action) &&
    (match r.fullPath with
     | none => false
     | some p => f p)

/-- `merged_df.loc[mask, env] = "OFF"` on one row: set the existing
environment column (all toggle environments are initialized beforehand,
toggles.py lines 197-199). -/
def setEnv (r : RowR) (env v : String) : RowR :=
  ⟨r.valueAction, r.fullPath, r.envs.map (fun e => if e.1 == env then (e.1, v) else e)⟩

/-- One iteration of the apply loop (toggles.py lines 208-228) on the
state (current rows, missing records so far). -/
def integrateStep (compilePat : String → Option (String → Bool))
    (st : List RowR × List ToggleRec) (t : ToggleRec) : List RowR × List ToggleRec :=
  match compilePat (regex_from_path t.path) with
  | none => st
  | some f =>
    if st.1.any (rowMatches f t.action) then
      (st.1.map (fun r => if rowMatches f t.action r then setEnv r t.env "OFF" else r),
       st.2)
    else
      (st.1, st.2 ++ [t])

/-- The whole apply loop: fold over the toggle records, starting from the
merged rows and an empty missing list. -/
def integrateApply (compilePat : String → Option (String → Bool))
    (rows : List RowR) (recs : List ToggleRec) : List RowR × List ToggleRec :=
  recs.foldl (integrateStep compilePat) (rows, [])

/-- C8: for a toggle record whose pattern compiles, the zero-match case
appends the record to the missing output, leaves every row unchanged and
does not abort (the step is a total function returning the input rows);
the at-least-one-match case sets the record's environment column to "OFF"
exactly on the matching rows and adds nothing to the missing output.
Stated on an arbitrary loop state, so it covers every processed record of
`integrateApply`; records whose pattern raises `re.error` are skipped
entirely by `continue` and are outside this claim. -/
theorem integrate_toggles_record_semantics
    (compilePat : String → Option (String → Bool))
    (rows : List RowR) (missing : List ToggleRec) (t : ToggleRec)
    (f : String → Bool)
    (hc : compilePat (regex_from_path t.path) = some f) :
    (integrateApply compilePat rows [t] = integrateStep compilePat (rows, []) t) ∧
    ((∀ r ∈ rows, rowMatches f t.action r = false) →
      integrateStep compilePat (rows, missing) t = (rows, missing ++ [t])) ∧
    ((∃ r ∈ rows, rowMatches f t.action r = true) →
      integrateStep compilePat (rows, missing) t =
        (rows.map (fun r => if rowMatches f t.action r then setEnv r t.env "OFF" else r),
         missing)) := by
  refine ⟨rfl, ?_, ?_⟩
  · intro hall
    rw [integrateStep, hc]
    dsimp only
    rw [if_neg]
    intro hany
    obtain ⟨r, hr, hm⟩ := List.any_eq_true.mp hany
    exact absurd hm (by rw [hall r hr]; simp)
  · intro hex
    obtain ⟨r, hr, hm⟩ := hex
    rw [integrateStep, hc]
    dsimp only
    rw [if_pos (List.any_eq_true.mpr ⟨r, hr, hm⟩)]

/-- Witness for `integrate_toggles_record_semantics` on one row matching
and one row not matching a record for environment "DEV". -/
theorem integrate_toggles_record_semantics_witness :
    (integrateApply (fun s => some (fun p => s == "..* .*Entitlement Check.*" && p == "E"))
        [⟨"A", some "E", [("DEV", "")]⟩, ⟨"B", some "F", [("DEV", "")]⟩]
        [⟨"DEV", "A", "*/ *Entitlement Check*"⟩]
      = integrateStep (fun s => some (fun p => s == "..* .*Entitlement Check.*" && p == "E"))
          ([⟨"A", some "E", [("DEV", "")]⟩, ⟨"B", some "F", [("DEV", "")]⟩], [])
          ⟨"DEV", "A", "*/ *Entitlement Check*"⟩) ∧
    ((∀ r ∈ ([⟨"A", some "E", [("DEV", "")]⟩, ⟨"B", some "F", [("DEV", "")]⟩] : List RowR),
        rowMatches (fun p => "..* .*Entitlement Check.*" == "..* .*Entitlement Check.*" && p == "E")
          "A" r = false) →
      integrateStep (fun s => some (fun p => s == "..* .*Entitlement Check.*" && p == "E"))
          ([⟨"A", some "E", [("DEV", "")]⟩, ⟨"B", some "F", [("DEV", "")]⟩], [])
          ⟨"DEV", "A", "*/ *Entitlement Check*"⟩
        = ([⟨"A", some "E", [("DEV", "")]⟩, ⟨"B", some "F", [("DEV", "")]⟩],
           [] ++ [⟨"DEV", "A", "*/ *Entitlement Check*"⟩])) ∧
    ((∃ r ∈ ([⟨"A", some "E", [("DEV", "")]⟩, ⟨"B", some "F", [("DEV", "")]⟩] : List RowR),
        rowMatches (fun p => "..* .*Entitlement Check.*" == "..* .*Entitlement Check.*" && p == "E")
          "A" r = true) →
      integrateStep (fun s => some (fun p => s == "..* .*Entitlement Check.*" && p == "E"))
          ([⟨"A", some "E", [("DEV", "")]⟩, ⟨"B", some "F", [("DEV", "")]⟩], [])
          ⟨"DEV", "A", "*/ *Entitlement Check*"⟩
        = ([⟨"A", some "E", [("DEV", "")]⟩, ⟨"B", some "F", [("DEV", "")]⟩].map
             (fun r => if rowMatches
                 (fun p => "..* .*Entitlement Check.*" == "..* .*Entitlement Check.*" && p == "E")
                 "A" r then setEnv r "DEV" "OFF" else r),
           [])) :=
  integrate_toggles_record_semantics
    (fun s => some (fun p => s == "..* .*Entitlement Check.*" && p == "E"))
    [⟨"A", some "E", [("DEV", "")]⟩, ⟨"B", some "F", [("DEV", "")]⟩]
    []
    ⟨"DEV", "A", "*/ *Entitlement Check*"⟩
    (fun p => "..* .*Entitlement Check.*" == "..* .*Entitlement Check.*" && p == "E")
    rfl

/-! ## Policy tree (policy_tree.py, `build_policy_tree` and `traverse`)

The nested `traverse` keeps no visited set, so the embedding is a
step-indexed worklist function `traverseF` that is structural in a fuel
argument: `none` means the fuel ran out on every bound (the Python
recursion does not return), `some none` a Python exception, and
`some (some recs)` a normal return with the records in emission order.
Python set-iteration orders appear as two oracle parameters: `enumIds`
enumerates the id set returned by `collect_condition_def_ids_from_tree`,
`enumNames` models `list(set(cond_names_parent))`. -/

structure PTRec where
  position : String
  id : JVal
  fullPath : String
  fullPathId : String
  condPath : String
  condId : JVal
deriving DecidableEq

/-- Insert into a Python dict built by comprehension: a repeated key keeps
its first position but takes the new value. -/
def dictUpsert (m : List (JVal × PyDict)) (k : JVal) (v : PyDict) : List (JVal × PyDict) :=
  if m.any (fun e => e.1 == k) then m.map (fun e => if e.1 == k then (e.1, v) else e)
  else m ++ [(k, v)]

/-- `{d["id"]: d for d in data if d.get("class") == "CombinedDecisionNode"}`:
`none` models the KeyError of a decision node without an "id", or the
TypeError of an unhashable id. -/
def buildCdNodes (data : List PyDict) : Option (List (JVal × PyDict)) :=
  (data.filter (fun d => pyGet d "class" == some (JVal.s "CombinedDecisionNode"))).foldl
    (fun acc d =>
      match acc with
      | none => none
      | some m =>
        match pyGet d "id" with
        | none => none
        | some k => if k.hashable = false then none else some (dictUpsert m k d))
    (some [])

/-- `{m["originId"]: m for m in metadata_nodes}`: `none` models the
KeyError of a metadata node without an "originId", or an unhashable one. -/
def buildMetaLk (metas : List PyDict) : Option (List (JVal × PyDict)) :=
  metas.foldl
    (fun acc d =>
      match acc with
      | none => none
      | some m =>
        match pyGet d "originId" with
        | none => none
        | some k => if k.hashable = false then none else some (dictUpsert m k d))
    (some [])

/-- Lookup in a dict whose keys are unique by construction. -/
def lkGet (m : List (JVal × PyDict)) (k : JVal) : Option PyDict :=
  (m.find? (fun e => e.1 == k)).map (fun e => e.2)

/-- `origin_to_cdnode.setdefault(cd["originLink"], []).append(cd)`. -/
def originUpsert (m : List (JVal × List PyDict)) (k : JVal) (cd : PyDict) :
    List (JVal × List PyDict) :=
  if m.any (fun e => e.1 == k) then m.map (fun e => if e.1 == k then (e.1, e.2 ++ [cd]) else e)
  else m ++ [(k, [cd])]

/-- Build `origin_to_cdnode` from the decision-node dict's values; a falsy
originLink is skipped, an unhashable one raises (`none`). -/
def buildOriginMap (cds : List PyDict) : Option (List (JVal × List PyDict)) :=
  cds.foldl
    (fun acc cd =>
      match acc with
      | none => none
      | some m =>
        match pyGet cd "originLink" with
        | none => some m
        | some l =>
          if l.truthy = false then some m
          else if l.hashable = false then none
          else some (originUpsert m l cd))
    (some [])

/-- `origin_to_cdnode.get(origin_id, [])`. -/
def originGet (m : List (JVal × List PyDict)) (k : JVal) : List PyDict :=
  ((m.find? (fun e => e.1 == k)).map (fun e => e.2)).getD []

/-- `next((c for c in condition_defs if c["id"] == cid), None)`: the outer
`none` is the KeyError raised by a scanned definition without an "id". -/
def findById : List PyDict → JVal → Option (Option PyDict)
  | [], _ => some none
  | c :: rest, cid =>
    match pyGet c "id" with
    | none => none
    | some v => if v == cid then some (some c) else findById rest cid

/-- The names appended for one guard's collected id list (policy_tree.py
lines 35-38): a found, truthy-named definition contributes its raw name
value. -/
def guardNames (condDefs : List PyDict) : List JVal → Option (List JVal)
  | [] => some []
  | cid :: rest =>
    match findById condDefs cid with
    | none => none
    | some copt =>
      match guardNames condDefs rest with
      | none => none
      | some ns =>
        match copt with
        | none => some ns
        | some c =>
          if c.isEmpty then some ns
          else
            match pyGet c "name" with
            | none => some ns
            | some nv => if nv.truthy then some (nv :: ns) else some ns

/-- `cond_names_parent` of one origin: every guarded decision node
contributes the names of its collected condition definitions; `enumIds`
is the hash-dependent iteration order of the collected set. -/
def condNamesAt (enumIds : Finset JVal → List JVal) (idlk : JMap)
    (condDefs : List PyDict) : List PyDict → Option (List JVal)
  | [] => some []
  | cd :: rest =>
    match condNamesAt enumIds idlk condDefs rest with
    | none => none
    | some ns =>
      match pyGet cd "guardNode" with
      | none => some ns
      | some g =>
        if g.truthy = false then some ns
        else
          match collect_condition_def_ids_from_tree idlk g with
          | none => none
          | some ids =>
            match guardNames condDefs (enumIds ids) with
            | none => none
            | some here => some (here ++ ns)

/-- `pick_single_condition_path` calls `.startswith` on every candidate:
a non-string name raises AttributeError (`none`). -/
def namesToStrings : List JVal → Option (List String)
  | [] => some []
  | JVal.s v :: rest => (namesToStrings rest).map (fun l => v :: l)
  | _ :: _ => none

/-- `next((c["id"] for c in condition_defs if c.get("name") == cond_val), "")`:
the first definition named exactly the winning path gives its id (KeyError,
`none`, when it has none); no match gives the empty string. -/
def condIdFor (condDefs : List PyDict) (cval : String) : Option JVal :=
  match condDefs.find? (fun c => pyGet c "name" == some (JVal.s cval)) with
  | none => some (JVal.s "")
  | some c => pyGet c "id"

/-- The inner child loop `for i, inp_id in enumerate(cd.get("inputNodes", []), 1)`
(policy_tree.py lines 52-58): emits `(metadataId, position.i)` for every
input that is a truthy-metadataId TargetMatchNode; `none` models the
KeyError of a found node without a "class" or the TypeError of an
unhashable input id. -/
def childLoop (idlk : JMap) (pos : String) : List JVal → Nat → Option (List (JVal × String))
  | [], _ => some []
  | inp :: rest, i =>
    if inp.hashable = false then none
    else
      match mapGet idlk inp with
      | none => childLoop idlk pos rest (i + 1)
      | some tmn =>
        if tmn.isEmpty then childLoop idlk pos rest (i + 1)
        else
          match pyGet tmn "class" with
          | none => none
          | some cl =>
            if (cl == JVal.s "TargetMatchNode") = false then childLoop idlk pos rest (i + 1)
            else
              match pyGet tmn "metadataId" with
              | none => childLoop idlk pos rest (i + 1)
              | some cid =>
                if cid.truthy = false then childLoop idlk pos rest (i + 1)
                else
                  match childLoop idlk pos rest (i + 1) with
                  | none => none
                  | some ks => some ((cid, pos ++ "." ++ toString i) :: ks)

/-- All child specs of an origin's decision nodes, in decision-node order;
the ordinal restarts at 1 for every decision node. -/
def childSpecs (idlk : JMap) (pos : String) : List PyDict → Option (List (JVal × String))
  | [] => some []
  | cd :: rest =>
    match pyIterOpt (pyGet cd "inputNodes") with
    | none => none
    | some l =>
      match childLoop idlk pos l 1 with
      | none => none
      | some here =>
        match childSpecs idlk pos rest with
        | none => none
        | some ks => some (here ++ ks)

structure TravCtx where
  enumIds : Finset JVal → List JVal
  enumNames : List JVal → List JVal
  metaLk : List (JVal × PyDict)
  idlk : JMap
  originMap : List (JVal × List PyDict)
  condDefs : List PyDict

/-- The worklist form of `traverse` (policy_tree.py lines 25-58): jobs are
(origin id, path names, path ids, position); a processed node's children
are pushed in front of the remaining jobs, which is exactly the pre-order
of the recursive original.  Structural in the fuel: `none` = the fuel ran
out (on a cyclic metadataId graph this happens for every fuel — the Python
recursion never returns), `some none` = exception, `some (some recs)` =
normal return. -/
def traverseF (ctx : TravCtx) :
    Nat → List (JVal × List String × List String × String) → List PTRec →
    Option (Option (List PTRec))
  | 0, _, _ => none
  | _ + 1, [], acc => some (some acc)
  | fuel + 1, (oid, pns, pids, pos) :: rest, acc =>
    if oid.hashable = false then some none
    else
      match lkGet ctx.metaLk oid with
      | none => traverseF ctx fuel rest acc
      | some node =>
        if node.isEmpty then traverseF ctx fuel rest acc
        else
          match pyGet node "originType" with
          | none => some none
          | some ot =>
            match pyGet node "name" with
            | none => some none
            | some nm =>
              match pyGet node "originId" with
              | none => some none
              | some noid =>
                match condNamesAt ctx.enumIds ctx.idlk ctx.condDefs
                    (originGet ctx.originMap oid) with
                | none => some none
                | some cnames =>
                  if cnames.any (fun v => v.hashable = false) then some none
                  else
                    match namesToStrings (ctx.enumNames cnames) with
                    | none => some none
                    | some strs =>
                      match condIdFor ctx.condDefs (pick_single_condition_path strs) with
                      | none => some none
                      | some cid =>
                        match childSpecs ctx.idlk pos (originGet ctx.originMap oid) with
                        | none => some none
                        | some kids =>
                          traverseF ctx fuel
                            (kids.map (fun kc =>
                              (kc.1, pns ++ [pyStr ot ++ ":" ++ pyStr nm],
                               pids ++ [pyStr ot ++ ":" ++ pyStr noid], kc.2)) ++ rest)
                            (acc ++ [⟨pos, noid,
                              String.intercalate " / " (pns ++ [pyStr ot ++ ":" ++ pyStr nm]),
                              String.intercalate " / " (pids ++ [pyStr ot ++ ":" ++ pyStr noid]),
                              pick_single_condition_path strs, cid⟩])

/-- The Package/DeploymentPackage header search of policy_tree.py line 67. -/
def pkgPred (m : PyDict) : Bool :=
  pyGet m "class" == some (JVal.s "Package") ||
  pyGet m "class" == some (JVal.s "DeploymentPackage")

def rootFromPackage (data : List PyDict) : Option JVal :=
  match data.find? pkgPred with
  | none => none
  | some p => pyGet p "rootEntityId"

/-- `if not root_id:` — the fallback triggers when no header was found or
its rootEntityId is falsy. -/
def packageRootTruthy (data : List PyDict) : Bool :=
  match rootFromPackage data with
  | some v => v.truthy
  | none => false

/-- The fallback search for a Metadata node literally named "NAB Policies"
(policy_tree.py line 75). -/
def fallbackRoot (metas : List PyDict) : Option PyDict :=
  metas.find? (fun m => pyGet m "name" == some (JVal.s "NAB Policies"))

/-- Embedding of `build_policy_tree` (policy_tree.py lines 5-85): prelude
dict builds (their KeyError/TypeError cases as `some none`), root
determination with the silent "NAB Policies" fallback and the
empty-DataFrame return, then the traversal.  `none` = the traversal does
not return within any bound of `fuel` steps. -/
def build_policy_treeF (enumIds : Finset JVal → List JVal)
    (enumNames : List JVal → List JVal) (fuel : Nat) (data : List PyDict) :
    Option (Option (List PTRec)) :=
  if data.any (fun d =>
      match pyGet d "id" with
      | some v => v.hashable = false
      | none => false) then some none
  else
    match buildCdNodes data with
    | none => some none
    | some cdm =>
      match buildOriginMap (cdm.map (fun e => e.2)) with
      | none => some none
      | some om =>
        match buildMetaLk (data.filter (fun d => pyGet d "class" == some (JVal.s "Metadata"))) with
        | none => some none
        | some mlk =>
          if packageRootTruthy data then
            traverseF ⟨enumIds, enumNames, mlk, buildIdMap data, om,
                data.filter (fun d => pyGet d "class" == some (JVal.s "ConditionDefinition"))⟩
              fuel [((rootFromPackage data).getD JVal.null, [], [], "1")] []
          else
            match fallbackRoot (data.filter (fun d => pyGet d "class" == some (JVal.s "Metadata"))) with
            | none => some (some [])
            | some fb =>
              traverseF ⟨enumIds, enumNames, mlk, buildIdMap data, om,
                  data.filter (fun d => pyGet d "class" == some (JVal.s "ConditionDefinition"))⟩
                fuel [((pyGet fb "originId").getD JVal.null, [], [], "1")] []

/-- Embedding of `pos_tuple` (utils.py lines 30-32): dot-split, keep the
all-digit segments, parse as integers. -/
def isDigitSeg (l : List Char) : Bool :=
  !(l.isEmpty) && l.all (fun c => 48 ≤ c.toNat && c.toNat ≤ 57)

def digitsVal (l : List Char) : Nat :=
  l.foldl (fun n c => n * 10 + (c.toNat - 48)) 0

def pos_tuple (s : String) : List Nat :=
  ((pySplit s ".").filter isDigitSeg).map digitsVal

def c4Fallback : List PyDict :=
  [[("class", JVal.s "Metadata"), ("originId", JVal.s "m1"),
    ("originType", JVal.s "POLICY"), ("name", JVal.s "NAB Policies")]]

/-- C4: the claim says a node list without a Package/DeploymentPackage root
fails with a typed MissingRootError.  The source instead (1) silently falls
back to a Metadata node literally named "NAB Policies" and builds the tree
from it, and (2) when that is also absent returns an empty DataFrame —
both are normal returns, no exception is raised in either case. -/
theorem build_policy_tree_missing_root_counterexample :
    build_policy_treeF (fun _ => []) (fun _ => []) 3 c4Fallback
      = some (some [⟨"1", JVal.s "m1", "POLICY:NAB Policies", "POLICY:m1", "", JVal.s ""⟩]) ∧
    build_policy_treeF (fun _ => []) (fun _ => []) 3 [] = some (some []) := by
  decide

/-- C4 (amended): when no package header provides a truthy rootEntityId and
no Metadata node is named "NAB Policies", `build_policy_tree` returns an
empty record list as a normal value (the empty DataFrame of line 82) —
there is no error path, provided the prelude dict builds raise nothing. -/
theorem build_policy_tree_missing_root_amended
    (enumIds : Finset JVal → List JVal) (enumNames : List JVal → List JVal)
    (fuel : Nat) (data : List PyDict)
    (cdm : List (JVal × PyDict)) (om : List (JVal × List PyDict))
    (mlk : List (JVal × PyDict))
    (hids : data.any (fun d =>
      match pyGet d "id" with
      | some v => v.hashable = false
      | none => false) = false)
    (hcdm : buildCdNodes data = some cdm)
    (hom : buildOriginMap (cdm.map (fun e => e.2)) = some om)
    (hmlk : buildMetaLk (data.filter (fun d => pyGet d "class" == some (JVal.s "Metadata")))
      = some mlk)
    (hroot : packageRootTruthy data = false)
    (hfb : fallbackRoot (data.filter (fun d => pyGet d "class" == some (JVal.s "Metadata")))
      = none) :
    build_policy_treeF enumIds enumNames fuel data = some (some []) := by
  unfold build_policy_treeF
  rw [if_neg (by rw [hids]; exact Bool.false_ne_true), hcdm]
  dsimp only
  rw [hom]
  dsimp only
  rw [hmlk]
  dsimp only
  rw [if_neg (by rw [hroot]; exact Bool.false_ne_true), hfb]

/-- Witness for `build_policy_tree_missing_root_amended` on a list with one
ordinary Metadata node and no package header. -/
theorem build_policy_tree_missing_root_amended_witness :
    build_policy_treeF (fun _ => []) (fun _ => []) 0
        [[("class", JVal.s "Metadata"), ("originId", JVal.s "x"), ("name", JVal.s "Y")]]
      = some (some []) :=
  build_policy_tree_missing_root_amended (fun _ => []) (fun _ => []) 0
    [[("class", JVal.s "Metadata"), ("originId", JVal.s "x"), ("name", JVal.s "Y")]]
    [] []
    [(JVal.s "x", [("class", JVal.s "Metadata"), ("originId", JVal.s "x"), ("name", JVal.s "Y")])]
    (by decide) (by decide) (by decide) (by decide) (by decide) (by decide)

def c10M1 : PyDict :=
  [("class", JVal.s "Metadata"), ("originId", JVal.s "m1"),
   ("originType", JVal.s "P"), ("name", JVal.s "A")]

def c10CD1 : PyDict :=
  [("class", JVal.s "CombinedDecisionNode"), ("id", JVal.s "cd1"),
   ("originLink", JVal.s "m1"), ("inputNodes", JVal.arr [JScal.s "t1"])]

/-- A graph whose single Metadata node's decision node has a
TargetMatchNode pointing back at the same originId: the metadataId links
form a cycle of length one. -/
def c10Data : List PyDict :=
  [[("class", JVal.s "Package"), ("rootEntityId", JVal.s "m1")],
   c10M1,
   c10CD1,
   [("class", JVal.s "TargetMatchNode"), ("id", JVal.s "t1"),
    ("metadataId", JVal.s "m1")]]

def c10Ctx : TravCtx :=
  ⟨fun _ => [], fun _ => [], [(JVal.s "m1", c10M1)], buildIdMap c10Data,
   [(JVal.s "m1", [c10CD1])], []⟩

theorem traverseF_c10_loop :
    ∀ (fuel : Nat) (pns pids : List String) (pos : String) (acc : List PTRec),
    traverseF c10Ctx fuel [(JVal.s "m1", pns, pids, pos)] acc = none := by
  intro fuel
  induction fuel with
  | zero => intro pns pids pos acc; rfl
  | succ fuel ih =>
    intro pns pids pos acc
    show traverseF c10Ctx fuel
        [(JVal.s "m1", pns ++ ["P:A"], pids ++ ["P:m1"], pos ++ "." ++ toString 1)]
        (acc ++ [⟨pos, JVal.s "m1", String.intercalate " / " (pns ++ ["P:A"]),
                 String.intercalate " / " (pids ++ ["P:m1"]), "", JVal.s ""⟩]) = none
    exact ih _ _ _ _

/-- C10: on `c10Data`, whose decision node's target-match child refers back
to its own origin, the traversal never returns: for every step bound the
fuel runs out, i.e. the Python recursion (which has no visited set) calls
itself without bound until the interpreter's recursion limit kills the
run. -/
theorem build_policy_tree_cycle_divergence :
    ∀ fuel : Nat, build_policy_treeF (fun _ => []) (fun _ => []) fuel c10Data = none := by
  intro fuel
  show traverseF c10Ctx fuel [(JVal.s "m1", [], [], "1")] [] = none
  exact traverseF_c10_loop fuel [] [] "1" []

/-- A graph with TWO CombinedDecisionNodes on the root origin: their child
ordinals both restart at 1, so two rows get position "1.1". -/
def c5Data : List PyDict :=
  [[("class", JVal.s "Package"), ("rootEntityId", JVal.s "m1")],
   [("class", JVal.s "Metadata"), ("originId", JVal.s "m1"),
    ("originType", JVal.s "P"), ("name", JVal.s "A")],
   [("class", JVal.s "Metadata"), ("originId", JVal.s "m2"),
    ("originType", JVal.s "P"), ("name", JVal.s "B")],
   [("class", JVal.s "Metadata"), ("originId", JVal.s "m3"),
    ("originType", JVal.s "P"), ("name", JVal.s "C")],
   [("class", JVal.s "Metadata"), ("originId", JVal.s "m4"),
    ("originType", JVal.s "P"), ("name", JVal.s "D")],
   [("class", JVal.s "CombinedDecisionNode"), ("id", JVal.s "cd1"),
    ("originLink", JVal.s "m1"), ("inputNodes", JVal.arr [JScal.s "t1"])],
   [("class", JVal.s "CombinedDecisionNode"), ("id", JVal.s "cd2"),
    ("originLink", JVal.s "m1"), ("inputNodes", JVal.arr [JScal.s "t2"])],
   [("class", JVal.s "CombinedDecisionNode"), ("id", JVal.s "cd3"),
    ("originLink", JVal.s "m2"), ("inputNodes", JVal.arr [JScal.s "t3"])],
   [("class", JVal.s "TargetMatchNode"), ("id", JVal.s "t1"),
    ("metadataId", JVal.s "m2")],
   [("class", JVal.s "TargetMatchNode"), ("id", JVal.s "t2"),
    ("metadataId", JVal.s "m4")],
   [("class", JVal.s "TargetMatchNode"), ("id", JVal.s "t3"),
    ("metadataId", JVal.s "m3")]]

/-- C5: on `c5Data` the traversal emits positions "1", "1.1", "1.1.1",
"1.1": the row at "1.1.1" has TWO rows whose position is its own with the
last segment removed (P1's "exactly one" fails), and the emitted order is
not even non-decreasing in the dotted-integer order — "1.1.1" is emitted
before the second "1.1" — so no sort by position can reproduce the
emission order (P2 fails). -/
theorem build_policy_tree_order_counterexample :
    build_policy_treeF (fun _ => []) (fun _ => []) 6 c5Data = some (some
      [⟨"1", JVal.s "m1", "P:A", "P:m1", "", JVal.s ""⟩,
       ⟨"1.1", JVal.s "m2", "P:A / P:B", "P:m1 / P:m2", "", JVal.s ""⟩,
       ⟨"1.1.1", JVal.s "m3", "P:A / P:B / P:C", "P:m1 / P:m2 / P:m3", "", JVal.s ""⟩,
       ⟨"1.1", JVal.s "m4", "P:A / P:D", "P:m1 / P:m4", "", JVal.s ""⟩]) ∧
    (([⟨"1", JVal.s "m1", "P:A", "P:m1", "", JVal.s ""⟩,
       ⟨"1.1", JVal.s "m2", "P:A / P:B", "P:m1 / P:m2", "", JVal.s ""⟩,
       ⟨"1.1.1", JVal.s "m3", "P:A / P:B / P:C", "P:m1 / P:m2 / P:m3", "", JVal.s ""⟩,
       ⟨"1.1", JVal.s "m4", "P:A / P:D", "P:m1 / P:m4", "", JVal.s ""⟩] : List PTRec).filter
        (fun r => r.position == "1.1")).length = 2 ∧
    posLe (pos_tuple "1.1.1") (pos_tuple "1.1") = false := by
  decide

/-- A position is either the root's "1" or extends the position of an
already-emitted record by one 1-based dotted ordinal. -/
def posOkPT (acc : List PTRec) (pos : String) : Prop :=
  pos = "1" ∨ ∃ p ∈ acc, ∃ i : Nat, pos = p.position ++ "." ++ toString (i + 1)

theorem posOkPT_mono {acc : List PTRec} {more : List PTRec} {pos : String}
    (h : posOkPT acc pos) : posOkPT (acc ++ more) pos := by
  rcases h with h | ⟨p, hp, i, hi⟩
  · exact Or.inl h
  · exact Or.inr ⟨p, List.mem_append_left _ hp, i, hi⟩

theorem childLoop_snd (idlk : JMap) (pos : String) :
    ∀ (l : List JVal) (i : Nat) (ks : List (JVal × String)),
    childLoop idlk pos l i = some ks → 1 ≤ i →
    ∀ kc ∈ ks, ∃ j : Nat, kc.2 = pos ++ "." ++ toString (j + 1) := by
  intro l
  induction l with
  | nil =>
    intro i ks h _ kc hkc
    obtain rfl : ([] : List (JVal × String)) = ks := Option.some.inj h
    exact absurd hkc (List.not_mem_nil kc)
  | cons inp rest ih =>
    intro i ks h hi kc hkc
    rw [childLoop] at h
    by_cases hh : inp.hashable = false
    · rw [if_pos hh] at h; exact absurd h (by simp)
    · rw [if_neg hh] at h
      cases hm : mapGet idlk inp with
      | none => rw [hm] at h; exact ih (i + 1) ks h (by omega) kc hkc
      | some tmn =>
        rw [hm] at h
        dsimp only at h
        by_cases he : tmn.isEmpty = true
        · rw [if_pos he] at h; exact ih (i + 1) ks h (by omega) kc hkc
        · rw [if_neg he] at h
          cases hc : pyGet tmn "class" with
          | none => rw [hc] at h; exact absurd h (by simp)
          | some cl =>
            rw [hc] at h
            dsimp only at h
            by_cases hcl : (cl == JVal.s "TargetMatchNode") = false
            · rw [if_pos hcl] at h; exact ih (i + 1) ks h (by omega) kc hkc
            · rw [if_neg hcl] at h
              cases hmd : pyGet tmn "metadataId" with
              | none => rw [hmd] at h; exact ih (i + 1) ks h (by omega) kc hkc
              | some cid =>
                rw [hmd] at h
                dsimp only at h
                by_cases ht : cid.truthy = false
                · rw [if_pos ht] at h; exact ih (i + 1) ks h (by omega) kc hkc
                · rw [if_neg ht] at h
                  cases hrec : childLoop idlk pos rest (i + 1) with
                  | none => rw [hrec] at h; exact absurd h (by simp)
                  | some ks0 =>
                    rw [hrec] at h
                    dsimp only at h
                    obtain rfl := Option.some.inj h
                    rcases List.mem_cons.mp hkc with rfl | hkc'
                    · obtain ⟨j, rfl⟩ : ∃ j, i = j + 1 := ⟨i - 1, by omega⟩
                      exact ⟨j, rfl⟩
                    · exact ih (i + 1) ks0 hrec (by omega) kc hkc'

theorem childSpecs_snd (idlk : JMap) (pos : String) :
    ∀ (cds : List PyDict) (ks : List (JVal × String)),
    childSpecs idlk pos cds = some ks →
    ∀ kc ∈ ks, ∃ j : Nat, kc.2 = pos ++ "." ++ toString (j + 1) := by
  intro cds
  induction cds with
  | nil =>
    intro ks h kc hkc
    obtain rfl : ([] : List (JVal × String)) = ks := Option.some.inj h
    exact absurd hkc (List.not_mem_nil kc)
  | cons cd rest ih =>
    intro ks h kc hkc
    rw [childSpecs] at h
    cases hit : pyIterOpt (pyGet cd "inputNodes") with
    | none => rw [hit] at h; exact absurd h (by simp)
    | some l =>
      rw [hit] at h
      dsimp only at h
      cases hcl : childLoop idlk pos l 1 with
      | none => rw [hcl] at h; exact absurd h (by simp)
      | some here =>
        rw [hcl] at h
        dsimp only at h
        cases hcs : childSpecs idlk pos rest with
        | none => rw [hcs] at h; exact absurd h (by simp)
        | some ks0 =>
          rw [hcs] at h
          dsimp only at h
          obtain rfl := Option.some.inj h
          rcases List.mem_append.mp hkc with hkc' | hkc'
          · exact childLoop_snd idlk pos l 1 here hcl (by omega) kc hkc'
          · exact ih ks0 hcs kc hkc'

theorem split_append_singleton {α : Type} (acc : List α) (x : α) (l1 : List α)
    (r : α) (l2 : List α) (h : acc ++ [x] = l1 ++ r :: l2) :
    (∃ l2a, acc = l1 ++ r :: l2a) ∨ (l1 = acc ∧ r = x) := by
  rcases List.append_eq_append_iff.mp h with ⟨a2, ha1, ha2⟩ | ⟨c2, hc1, hc2⟩
  · have hlen : a2.length + (1 + l2.length) = 1 := by
      have := congrArg List.length ha2
      simp at this
      omega
    have ha2nil : a2 = [] := List.eq_nil_of_length_eq_zero (by omega)
    have hl2nil : l2 = [] := List.eq_nil_of_length_eq_zero (by omega)
    subst ha2nil hl2nil
    simp only [List.nil_append] at ha2
    have hx : x = r := ((List.cons.injEq x [] r []).mp ha2).1
    exact Or.inr ⟨by rw [ha1]; simp, hx.symm⟩
  · cases c2 with
    | nil =>
      simp only [List.nil_append] at hc2
      refine Or.inr ⟨by rw [hc1]; simp, ((List.cons.injEq r l2 x []).mp hc2).1⟩
    | cons y c2' =>
      obtain ⟨rfl, rfl⟩ := (List.cons.injEq r l2 y (c2' ++ [x])).mp hc2
      exact Or.inl ⟨c2', hc1⟩

theorem traverseF_posOk (ctx : TravCtx) :
    ∀ (fuel : Nat) (jobs : List (JVal × List String × List String × String))
      (acc out : List PTRec),
    traverseF ctx fuel jobs acc = some (some out) →
    (∀ j ∈ jobs, posOkPT acc j.2.2.2) →
    (∀ l1 r l2, acc = l1 ++ r :: l2 → posOkPT l1 r.position) →
    ∀ l1 r l2, out = l1 ++ r :: l2 → posOkPT l1 r.position := by
  intro fuel
  induction fuel with
  | zero =>
    intro jobs acc out h _ _
    simp [traverseF] at h
  | succ fuel ih =>
    intro jobs acc out h hjobs hacc
    cases jobs with
    | nil =>
      simp only [traverseF, Option.some.injEq] at h
      subst h
      exact hacc
    | cons job rest =>
      obtain ⟨oid, pns, pids, pos⟩ := job
      simp only [traverseF] at h
      by_cases hh : oid.hashable = false
      · rw [if_pos hh] at h; exact absurd h (by simp)
      · rw [if_neg hh] at h
        cases hlk : lkGet ctx.metaLk oid with
        | none =>
          rw [hlk] at h
          exact ih rest acc out h (fun j hj => hjobs j (List.mem_cons_of_mem _ hj)) hacc
        | some node =>
          rw [hlk] at h
          dsimp only at h
          by_cases he : node.isEmpty = true
          · rw [if_pos he] at h
            exact ih rest acc out h (fun j hj => hjobs j (List.mem_cons_of_mem _ hj)) hacc
          · rw [if_neg he] at h
            cases hot : pyGet node "originType" with
            | none => rw [hot] at h; exact absurd h (by simp)
            | some ot =>
              rw [hot] at h
              dsimp only at h
              cases hnm : pyGet node "name" with
              | none => rw [hnm] at h; exact absurd h (by simp)
              | some nm =>
                rw [hnm] at h
                dsimp only at h
                cases hoid2 : pyGet node "originId" with
                | none => rw [hoid2] at h; exact absurd h (by simp)
                | some noid =>
                  rw [hoid2] at h
                  dsimp only at h
                  cases hcn : condNamesAt ctx.enumIds ctx.idlk ctx.condDefs
                      (originGet ctx.originMap oid) with
                  | none => rw [hcn] at h; exact absurd h (by simp)
                  | some cnames =>
                    rw [hcn] at h
                    dsimp only at h
                    by_cases hhash : cnames.any (fun v => v.hashable = false) = true
                    · rw [if_pos hhash] at h; exact absurd h (by simp)
                    · rw [if_neg hhash] at h
                      cases hns : namesToStrings (ctx.enumNames cnames) with
                      | none => rw [hns] at h; exact absurd h (by simp)
                      | some strs =>
                        rw [hns] at h
                        dsimp only at h
                        cases hci : condIdFor ctx.condDefs (pick_single_condition_path strs) with
                        | none => rw [hci] at h; exact absurd h (by simp)
                        | some cid =>
                          rw [hci] at h
                          dsimp only at h
                          cases hks : childSpecs ctx.idlk pos (originGet ctx.originMap oid) with
                          | none => rw [hks] at h; exact absurd h (by simp)
                          | some kids =>
                            rw [hks] at h
                            dsimp only at h
                            refine ih _ _ out h ?_ ?_
                            · intro j hj
                              rcases List.mem_append.mp hj with hj' | hj'
                              · obtain ⟨kc, hkc, rfl⟩ := List.mem_map.mp hj'
                                obtain ⟨jx, hjx⟩ :=
                                  childSpecs_snd ctx.idlk pos _ kids hks kc hkc
                                exact Or.inr ⟨_, List.mem_append_right _ (List.mem_singleton.mpr rfl),
                                  jx, hjx⟩
                              · exact posOkPT_mono (hjobs j (List.mem_cons_of_mem _ hj'))
                            · intro l1 r l2 hsplit
                              rcases split_append_singleton acc _ l1 r l2 hsplit with
                                ⟨l2a, hacc'⟩ | ⟨rfl, rfl⟩
                              · exact hacc l1 r l2a hacc'
                              · exact hjobs (oid, pns, pids, pos) (List.mem_cons_self _ _)

/-- C5 (amended): whenever buildPolicyTree returns, every emitted row other
than the root row extends the position of a row emitted strictly BEFORE it
by one dotted 1-based ordinal (its emitting parent).  The claim's stronger
parts fail: the parent row need not be unique — two decision nodes on one
origin emit children with identical positions — and sorting by position
does not reproduce the emission order (see the counterexample). -/
theorem build_policy_tree_positions_amended
    (enumIds : Finset JVal → List JVal) (enumNames : List JVal → List JVal)
    (fuel : Nat) (data : List PyDict) (recs : List PTRec)
    (h : build_policy_treeF enumIds enumNames fuel data = some (some recs)) :
    ∀ (l1 : List PTRec) (r : PTRec) (l2 : List PTRec), recs = l1 ++ r :: l2 →
      r.position = "1" ∨
        ∃ p ∈ l1, ∃ i : Nat, r.position = p.position ++ "." ++ toString (i + 1) := by
  unfold build_policy_treeF at h
  split at h
  · exact absurd h (by simp)
  · split at h
    · exact absurd h (by simp)
    · split at h
      · exact absurd h (by simp)
      · split at h
        · exact absurd h (by simp)
        · split at h
          · intro l1 r l2 hsplit
            refine traverseF_posOk _ fuel _ [] recs h ?_ ?_ l1 r l2 hsplit
            · intro j hj
              rw [List.mem_singleton] at hj
              subst hj
              exact Or.inl rfl
            · intro a b c habs
              exact absurd habs (by simp)
          · split at h
            · obtain rfl := (Option.some.inj (Option.some.inj h)).symm
              intro l1 r l2 hsplit
              exact absurd hsplit (by simp)
            · intro l1 r l2 hsplit
              refine traverseF_posOk _ fuel _ [] recs h ?_ ?_ l1 r l2 hsplit
              · intro j hj
                rw [List.mem_singleton] at hj
                subst hj
                exact Or.inl rfl
              · intro a b c habs
                exact absurd habs (by simp)

/-- Witness for `build_policy_tree_positions_amended`: the second row of
the `c5Data` tree extends the root row's position "1" by ".1". -/
theorem build_policy_tree_positions_amended_witness :
    PTRec.position ⟨"1.1", JVal.s "m2", "P:A / P:B", "P:m1 / P:m2", "", JVal.s ""⟩ = "1" ∨
    ∃ p ∈ [(⟨"1", JVal.s "m1", "P:A", "P:m1", "", JVal.s ""⟩ : PTRec)], ∃ i : Nat,
      PTRec.position ⟨"1.1", JVal.s "m2", "P:A / P:B", "P:m1 / P:m2", "", JVal.s ""⟩
        = p.position ++ "." ++ toString (i + 1) := by
  have heval : build_policy_treeF (fun _ => []) (fun _ => []) 6 c5Data = some (some
      [⟨"1", JVal.s "m1", "P:A", "P:m1", "", JVal.s ""⟩,
       ⟨"1.1", JVal.s "m2", "P:A / P:B", "P:m1 / P:m2", "", JVal.s ""⟩,
       ⟨"1.1.1", JVal.s "m3", "P:A / P:B / P:C", "P:m1 / P:m2 / P:m3", "", JVal.s ""⟩,
       ⟨"1.1", JVal.s "m4", "P:A / P:D", "P:m1 / P:m4", "", JVal.s ""⟩]) := by decide
  exact build_policy_tree_positions_amended (fun _ => []) (fun _ => []) 6 c5Data _ heval
    [⟨"1", JVal.s "m1", "P:A", "P:m1", "", JVal.s ""⟩]
    ⟨"1.1", JVal.s "m2", "P:A / P:B", "P:m1 / P:m2", "", JVal.s ""⟩
    [⟨"1.1.1", JVal.s "m3", "P:A / P:B / P:C", "P:m1 / P:m2 / P:m3", "", JVal.s ""⟩,
     ⟨"1.1", JVal.s "m4", "P:A / P:D", "P:m1 / P:m4", "", JVal.s ""⟩] rfl
